import Mathlib

/-! GFFT: pipeline assembly and the kernel registry of `gfft.h`

A shallow embedding of the template metaprogram in `gfft.h`.

* C++ types that are template arguments become values: a stage class such as
  `InTime<N,T,S>` is a value of `Stage`, a kernel class `GFFT<P,T,...>` is a
  value of the structure `GFFT` holding its template arguments.
* A `Loki::Typelist` is a list: `Loki::NullType` is `[]` and
  `Loki::Typelist<H,Tl>` is `H :: Tl`.
* Template instantiation is function application; the nested typedef `Result`
  is the value of the function.
* `unsigned` template arguments are natural numbers below `2 ^ 32`; arithmetic
  on them is taken modulo `2 ^ 32`.
-/

set_option autoImplicit false

namespace DFT

/-! ## Data model -/

/-- Width of `int` / `unsigned` in bits. -/
def wordBits : Nat := 32

/-- Number of values of an `unsigned`: `2 ^ 32`. -/
def wordSize : Nat := 2 ^ wordBits

/-- Name of a C++ element type (`float`, `double`, ...), the argument `T`. -/
abbrev CppType := String

/-- A `Loki::Typelist`: `NullType` is `[]`, `Typelist<H,Tl>` is `H :: Tl`. -/
abbrev Typelist (α : Type) : Type := List α

/-- Modelled from the spec: the direction stage classes `Forward<N,T>` and
`Backward<N,T>` of `gfftalg.h` (not in `src/`), which carry the length `N`, the
element type and the static member `Sign`. -/
inductive DirStage where
  | Forward (N : Nat) (T : CppType)
  | Backward (N : Nat) (T : CppType)
  deriving DecidableEq, Repr

/-- Modelled from the spec: the static member `Sign` of a direction stage,
`+1` for `Forward<N,T>` and `-1` for `Backward<N,T>` (`gfftalg.h`, not in
`src/`; spec 4.1: "Forward: sign = +1", "Backward: sign = -1"). -/
def DirStage.Sign : DirStage → Int
  | .Forward _ _ => 1
  | .Backward _ _ => -1

/-- Length argument `N` of a direction stage class. -/
def DirStage.N : DirStage → Nat
  | .Forward N _ => N
  | .Backward N _ => N

/-- The stage classes that `gfft.h` instantiates: `GFFTswap<N,T>` (reorder),
`InTime<N,T,S>` and `InFreq<N,T,S>` (recursive split), `Separate<N,T,S>`
(separator), and a direction stage `Direction::Type<N,T>`. -/
inductive Stage where
  | GFFTswap (N : Nat) (T : CppType)
  | InTime (N : Nat) (T : CppType) (S : Int)
  | InFreq (N : Nat) (T : CppType) (S : Int)
  | Separate (N : Nat) (T : CppType) (S : Int)
  | Direction (D : DirStage)
  deriving DecidableEq, Repr

/-- Length argument `N` of a stage class. -/
def Stage.N : Stage → Nat
  | .GFFTswap N _ => N
  | .InTime N _ _ => N
  | .InFreq N _ _ => N
  | .Separate N _ _ => N
  | .Direction D => D.N

/-- Sign argument of a stage class that has one (`InTime`, `InFreq`, `Separate`)
or, for a direction stage, its member `Sign`; `GFFTswap` has none. -/
def Stage.Sign : Stage → Option Int
  | .GFFTswap _ _ => none
  | .InTime _ _ S => some S
  | .InFreq _ _ S => some S
  | .Separate _ _ S => some S
  | .Direction D => some D.Sign

/-- The template argument `Direction`: `FORWARD` or `BACKWARD`. -/
inductive Direction where
  | FORWARD
  | BACKWARD
  deriving DecidableEq, Repr

/-- The template argument `Decimation`: `INTIME` or `INFREQ`. -/
inductive Decimation where
  | INTIME
  | INFREQ
  deriving DecidableEq, Repr

/-- The template argument `Type`: `COMPLEX` or `REAL`. -/
inductive TransformType where
  | COMPLEX
  | REAL
  deriving DecidableEq, Repr

/-- The template argument `FactoryPolicy`: `Empty` (default of `GFFT`) or
`AbstractFFT<T>` (default of `GFFTList`). -/
inductive FactoryPolicy where
  | Empty
  | AbstractFFT (T : CppType)
  deriving DecidableEq, Repr

/-! ## Typelist append -/

/-- Modelled from the spec: `Loki::TL::Append<TList,T>::Result`
(`loki/Typelist.h`, not in `src/`) for a single type `T`: `Append<NullType,T>`
is `Typelist<T,NullType>` and `Append<Typelist<Head,Tail>,T>` is
`Typelist<Head, Append<Tail,T>::Result>`; spec 4.1: the separator "is appended
to the end of the pipeline". -/
def Loki.TL.Append {α : Type} : Typelist α → α → Typelist α
  | [], T => [T]
  | Head :: Tail, T => Head :: Loki.TL.Append Tail T

/-! ## Direction selectors (`gfft.h` 40-60) -/

/-- `FORWARD::ID`. -/
def FORWARD.ID : Nat := 0

/-- `FORWARD::Type<N,T>`, which derives from `Forward<N,T>`. -/
def FORWARD.Type_ (N : Nat) (T : CppType) : DirStage := .Forward N T

/-- `FORWARD::AddSeparator<List,Separator>::Result`:
`Loki::TL::Append<List,Separator>::Result`. -/
def FORWARD.AddSeparator {α : Type} (L : Typelist α) (Separator : α) : Typelist α :=
  Loki.TL.Append L Separator

/-- `BACKWARD::ID`. -/
def BACKWARD.ID : Nat := 1

/-- `BACKWARD::Type<N,T>`, which derives from `Backward<N,T>`. -/
def BACKWARD.Type_ (N : Nat) (T : CppType) : DirStage := .Backward N T

/-- `BACKWARD::AddSeparator<List,Separator>::Result`:
`Loki::Typelist<Separator,List>`. -/
def BACKWARD.AddSeparator {α : Type} (L : Typelist α) (Separator : α) : Typelist α :=
  Separator :: L

/-- `Direction::ID` for a template argument `Direction`. -/
def Direction.ID : Direction → Nat
  | .FORWARD => FORWARD.ID
  | .BACKWARD => BACKWARD.ID

/-- `Direction::template Type<N,T>` for a template argument `Direction`. -/
def Direction.Type_ : Direction → Nat → CppType → DirStage
  | .FORWARD => FORWARD.Type_
  | .BACKWARD => BACKWARD.Type_

/-- `Direction::template AddSeparator<List,Separator>::Result` for a template
argument `Direction`. -/
def Direction.AddSeparator {α : Type} : Direction → Typelist α → α → Typelist α
  | .FORWARD => FORWARD.AddSeparator
  | .BACKWARD => BACKWARD.AddSeparator

/-! ## Decimation selectors (`gfft.h` 63-85) -/

/-- `INTIME::ID`. -/
def INTIME.ID : Nat := 0

/-- `INTIME::List<N,T,Swap,Direction>::Result`:
`TYPELIST_3(Swap, InTime<N,T,Direction::Sign>, Direction)`. -/
def INTIME.List (N : Nat) (T : CppType) (Swap : Stage) (Direction : DirStage) :
    Typelist Stage :=
  [Swap, Stage.InTime N T Direction.Sign, Stage.Direction Direction]

/-- `INFREQ::ID`. -/
def INFREQ.ID : Nat := 1

/-- `INFREQ::List<N,T,Swap,Direction>::Result`:
`TYPELIST_3(InFreq<N,T,Direction::Sign>, Swap, Direction)`. -/
def INFREQ.List (N : Nat) (T : CppType) (Swap : Stage) (Direction : DirStage) :
    Typelist Stage :=
  [Stage.InFreq N T Direction.Sign, Swap, Stage.Direction Direction]

/-- `Decimation::template List<N,T,Swap,Dir>::Result` for a template argument
`Decimation`. -/
def Decimation.List : Decimation → Nat → CppType → Stage → DirStage → Typelist Stage
  | .INTIME => INTIME.List
  | .INFREQ => INFREQ.List

/-! ## Transform types (`gfft.h` 88-103) -/

/-- `COMPLEX::ID`. -/
def COMPLEX.ID : Nat := 0

/-- `COMPLEX::Algorithm<Direction,List,Separator>::Result`: `List`. -/
def COMPLEX.Algorithm {α : Type} (_D : Direction) (L : Typelist α) (_Separator : α) :
    Typelist α :=
  L

/-- `REAL::ID`. -/
def REAL.ID : Nat := 1

/-- `REAL::Algorithm<Direction,List,Separator>::Result`:
`Direction::template AddSeparator<List,Separator>::Result`. -/
def REAL.Algorithm {α : Type} (D : Direction) (L : Typelist α) (Separator : α) :
    Typelist α :=
  D.AddSeparator L Separator

/-- `Type::template Algorithm<Direction,TList,Sep>::Result` for a template
argument `Type`. -/
def TransformType.Algorithm {α : Type} :
    TransformType → Direction → Typelist α → α → Typelist α
  | .COMPLEX => COMPLEX.Algorithm
  | .REAL => REAL.Algorithm

/-! ## The kernel class `GFFT` (`gfft.h` 115-142) -/

/-- An instantiation `GFFT<P,T,Type,Decimation,Direction,FactoryPolicy,IDN>`,
given by its template arguments. -/
structure GFFT where
  P : Nat
  T : CppType
  Ty : TransformType
  Decimation : DFT.Decimation
  Direction : DFT.Direction
  FactoryPolicy : DFT.FactoryPolicy
  IDN : Nat
  deriving DecidableEq, Repr

/-- `enum { N = 1<<P }`, as received by the `unsigned N` parameter of the stage
classes: the shift is done in a 32-bit `int`, so only the low 32 bits of
`1 * 2 ^ P` remain. This is the value of the code for every class that builds
(see `GFFT.Builds`); for `P ≥ 32`, where the class does not build, it is the
value of the shift taken modulo `2 ^ 32`. -/
def GFFT.N (g : GFFT) : Nat := (1 <<< g.P) % wordSize

/-- Build-time acceptance of the class `GFFT<P,...>`: the enumerator
`N = 1<<P` (`gfft.h` 122) is a constant expression only for a shift count below
the width of `int`, so for `P ≥ 32` the class is ill-formed and is rejected at
build time. (For `P = 31` the enumerator is `-2^31`; a dialect that accepts its
conversion to the `unsigned N` of the stage classes sizes them `2^31`, the
others reject the class as well.) -/
abbrev GFFT.Builds (g : GFFT) : Prop := g.P < wordBits

/-- `typedef GFFTswap<N,T> Swap`. -/
def GFFT.Swap (g : GFFT) : Stage := Stage.GFFTswap g.N g.T

/-- `typedef typename Direction::template Type<N,T> Dir`. -/
def GFFT.Dir (g : GFFT) : DirStage := g.Direction.Type_ g.N g.T

/-- `typedef Separate<N,T,Dir::Sign> Sep`. -/
def GFFT.Sep (g : GFFT) : Stage := Stage.Separate g.N g.T g.Dir.Sign

/-- `typedef typename Decimation::template List<N,T,Swap,Dir>::Result TList`. -/
def GFFT.TList (g : GFFT) : Typelist Stage := g.Decimation.List g.N g.T g.Swap g.Dir

/-- `typedef typename Type::template Algorithm<Direction,TList,Sep>::Result Alg`,
the pipeline held by the member `PoliciesHandler<Alg> run`. -/
def GFFT.Alg (g : GFFT) : Typelist Stage := g.Ty.Algorithm g.Direction g.TList g.Sep

/-- `enum { ID = IDN }`. -/
def GFFT.ID (g : GFFT) : Nat := g.IDN

/-- Modelled from the spec: `PoliciesHandler<TList>::apply(data)` of
`gfftpolicy.h` (not in `src/`). For `NullType` it leaves the buffer as it is;
for `Typelist<Head,Tail>` it applies the stage `Head` to the buffer and then the
handler of `Tail` (spec 3: "stages execute strictly in the stored order, each
mutating the buffer in place before the next runs"). The effect of one stage on
the buffer, `Head::apply`, is the parameter `stage`. -/
def PoliciesHandler.apply {Buf : Type} (stage : Stage → Buf → Buf) :
    Typelist Stage → Buf → Buf
  | [], data => data
  | Head :: Tail, data => PoliciesHandler.apply stage Tail (stage Head data)

/-- `GFFT::fft(data)`: `run.apply(data)` with `run : PoliciesHandler<Alg>`;
the result is the buffer after the call. -/
def GFFT.fft {Buf : Type} (stage : Stage → Buf → Buf) (g : GFFT) (data : Buf) : Buf :=
  PoliciesHandler.apply stage g.Alg data

/-- The instantiation `GFFT<P,T,Type,Decimation,Direction,FactoryPolicy>` with
the last argument left to its default, `IDN = P`. -/
def GFFT.inst (P : Nat) (T : CppType) (Ty : TransformType) (Dec : DFT.Decimation)
    (Dir : DFT.Direction) (FP : DFT.FactoryPolicy) : GFFT :=
  ⟨P, T, Ty, Dec, Dir, FP, P⟩

/-- `GFFT::Create()`: `new GFFT<P,T,Type,Decimation,Direction,FactoryPolicy>()`;
the value is the class of the newly allocated kernel. -/
def GFFT.Create (g : GFFT) : GFFT :=
  GFFT.inst g.P g.T g.Ty g.Decimation g.Direction g.FactoryPolicy

/-! ## The length-range generator `GFFTList` (`gfft.h` 145-163) -/

/-- `GFFTList<Begin,End,T,Type,Decimation,Direction,FactoryPolicy>::Result`.
The specialisation `GFFTList<End,End,...>` gives `Loki::NullType`; the primary
template gives `Loki::Typelist<GFFT<Begin,...>, GFFTList<Begin+1,End,...>::Result>`,
where `Begin+1` is computed in `unsigned`. The first argument bounds the number
of nested instantiations of the primary template; `none` means that the bound
was reached before the specialisation was. -/
def GFFTList : Nat → Nat → Nat → CppType → TransformType → Decimation → Direction →
    FactoryPolicy → Option (Typelist GFFT)
  | 0, Begin, End, _, _, _, _, _ => if Begin = End then some [] else none
  | depth + 1, Begin, End, T, Ty, Dec, Dir, FP =>
    if Begin = End then some []
    else
      match GFFTList depth ((Begin + 1) % wordSize) End T Ty Dec Dir FP with
      | none => none
      | some Result => some (GFFT.inst Begin T Ty Dec Dir FP :: Result)

/-- Build-time acceptance of a family of kernel builders: `GFFTList` has been
instantiated within the bound and every class of the family builds, as any use
of the family needs (`FactoryInit` takes `H::ID` and `H::Create` of each class
`H`, `gfft.h` 183-189). -/
def GFFTList.builds : Option (Typelist GFFT) → Bool
  | none => false
  | some L => L.all (fun g => decide g.Builds)

/-! ## The registry (`gfft.h` 166-192) -/

/-- The condition raised by a failed `create`. -/
inductive FactoryError where
  | UnknownLength (id : Nat)
  deriving DecidableEq, Repr

/-- Modelled from the spec: the object factory
`Loki::Factory<AbstractFFT<T>,unsigned int>` (`loki/Factory.h`, not in `src/`),
a "mapping length-id -> create-function" (spec 4.6). An entry `(id, g)` maps
`id` to the static member function `Create` of the kernel class `g`. -/
abbrev Factory := List (Nat × GFFT)

/-- Modelled from the spec: lookup of the create-function stored for `id`
(`loki/Factory.h`, not in `src/`). -/
def Factory.find : Factory → Nat → Option GFFT
  | [], _ => none
  | (k, c) :: rest, id => if k = id then some c else Factory.find rest id

/-- Modelled from the spec: `Factory::Register(id, creator)` (`loki/Factory.h`,
not in `src/`). The registry is "an append-only mapping populated exactly once
per id" (spec 3): an id that is already present keeps its create-function. -/
def Factory.Register (f : Factory) (id : Nat) (creator : GFFT) : Factory :=
  match f.find id with
  | some _ => f
  | none => f ++ [(id, creator)]

/-- Modelled from the spec: `create(id)` (`Factory::CreateObject` of
`loki/Factory.h`, not in `src/`): "On miss: fails with an UnknownLength
condition. On hit: invokes the stored create-function and returns a newly
allocated kernel" (spec 4.6). -/
def Factory.create (f : Factory) (id : Nat) : Except FactoryError GFFT :=
  match f.find id with
  | some c => Except.ok c.Create
  | none => Except.error (FactoryError.UnknownLength id)

/-- The ids registered in a factory, in order of registration. -/
def Factory.keys (f : Factory) : List Nat := f.map Prod.fst

/-- Modelled from the spec: `FactoryInit<TList>::apply(f)` of `finit.h` (not in
`src/`): "registers every kernel builder produced by the length-range generator
under its own length id" (spec 4.6), that is `f.Register(H::ID, H::Create)` for
every class `H` of the typelist, first to last. -/
def FactoryInit.apply : Typelist GFFT → Factory → Factory
  | [], f => f
  | H :: Tl, f => FactoryInit.apply Tl (f.Register H.ID H)

/-- The template arguments that tell one instantiation of the base class
`Loki::SingletonHolder<Loki::Factory<AbstractFFT<T>,unsigned int>,
GFFT_Options<Type,Decimation,Direction> >` from another. -/
structure SingletonKey where
  T : CppType
  Ty : TransformType
  Decimation : DFT.Decimation
  Direction : DFT.Direction
  deriving DecidableEq, Repr

/-- The singletons of the process: for every instantiation of the base class,
the factory it holds, or `none` while it has not been created. -/
abbrev World := SingletonKey → Option Factory

/-- The process before any singleton has been created. -/
def World.init : World := fun _ => none

/-- Modelled from the spec: `Base::Instance()` (`loki/Singleton.h`, not in
`src/`): the "process-wide, lazily-initialized" object (spec 2) of this
instantiation of the base class; it is created empty on first access and the
same object is returned afterwards. -/
def Base.Instance (k : SingletonKey) (w : World) : Factory × World :=
  match w k with
  | some f => (f, w)
  | none => ([], Function.update w k (some []))

/-- `typedef FactoryInit<typename GFFTList<Min,Max,T,Type,Decimation,Direction>::Result> FInit`:
the typelist handed to `FactoryInit`, with `FactoryPolicy` left to the default
`AbstractFFT<T>` of `GFFTList`. -/
def GFFT_Singleton.FInit (depth Min Max : Nat) (T : CppType) (Ty : TransformType)
    (Dec : Decimation) (Dir : Direction) : Option (Typelist GFFT) :=
  GFFTList depth Min Max T Ty Dec Dir (FactoryPolicy.AbstractFFT T)

/-- `GFFT_Singleton<Min,Max,T,Type,Decimation,Direction>::Instance()`:
`FInit::apply(Base::Instance()); return Base::Instance();`. The result is the
content of the returned factory and the singletons after the call; `none` means
that `FInit` could not be instantiated within `depth`. The classes of the family
are registered as they are named; whether each of them builds is
`GFFTList.builds`. -/
def GFFT_Singleton.Instance (depth Min Max : Nat) (T : CppType) (Ty : TransformType)
    (Dec : Decimation) (Dir : Direction) (w : World) : Option (Factory × World) :=
  match GFFT_Singleton.FInit depth Min Max T Ty Dec Dir with
  | none => none
  | some L =>
    let k : SingletonKey := ⟨T, Ty, Dec, Dir⟩
    let r := Base.Instance k w
    let w2 := Function.update r.2 k (some (FactoryInit.apply L r.1))
    some (Base.Instance k w2)

/-- The states of the process that calls of `GFFT_Singleton<...>::Instance()`
lead to from the start of the process. -/
inductive Reachable : World → Prop where
  | init : Reachable World.init
  | step (depth Min Max : Nat) (T : CppType) (Ty : TransformType) (Dec : Decimation)
      (Dir : Direction) (w : World) (r : Factory × World) :
      Reachable w → GFFT_Singleton.Instance depth Min Max T Ty Dec Dir w = some r →
      Reachable r.2

/-- Well-formedness of the factory of the singleton `k`: no id is registered
twice, and the create-function stored for an id is `Create` of
`GFFT<id,T,Type,Decimation,Direction,AbstractFFT<T>>` with the arguments of `k`. -/
def Factory.Wf (k : SingletonKey) (f : Factory) : Prop :=
  f.keys.Nodup ∧
  ∀ (id : Nat) (c : GFFT), f.find id = some c →
    c = GFFT.inst id k.T k.Ty k.Decimation k.Direction (FactoryPolicy.AbstractFFT k.T)

/-- Well-formedness of the singletons of the process: every factory that has
been created is well-formed for its own singleton. -/
def World.Wf (w : World) : Prop :=
  ∀ (k : SingletonKey) (f : Factory), w k = some f → f.Wf k

/-! ## Roles of the stages -/

/-- The role of a stage in a pipeline (spec, glossary: "reorder, recursive
split, direction/twiddle application, domain separation"). -/
inductive StageKind where
  | reorder
  | split
  | direction
  | separator
  deriving DecidableEq, Repr

/-- The role of each stage class: `GFFTswap` reorders, `InTime` and `InFreq`
are the recursive-split stages, `Separate` is the separator, and
`Direction::Type<N,T>` is the direction stage. -/
def Stage.kind : Stage → StageKind
  | .GFFTswap _ _ => StageKind.reorder
  | .InTime _ _ _ => StageKind.split
  | .InFreq _ _ _ => StageKind.split
  | .Separate _ _ _ => StageKind.separator
  | .Direction _ => StageKind.direction

/-! ## Numeric content of the stages (spec 4.2 and 8) -/

/-- Modelled from the spec: the twiddle factors `cur, cur*w, cur*w*w, ...` of a
stage, each obtained from the one before by one multiplication ("the
trigonometric recursion used to generate twiddle factors", spec 1; `gfftalg.h`
is not in `src/`). -/
def twiddlesFrom {α : Type} [Mul α] (w : α) : α → Nat → List α
  | _, 0 => []
  | cur, n + 1 => cur :: twiddlesFrom w (cur * w) n

/-- Modelled from the spec: the first `n` twiddle factors `1, w, w*w, ...`
(`gfftalg.h`, not in `src/`). -/
def twiddles {α : Type} [Mul α] [One α] (w : α) (n : Nat) : List α :=
  twiddlesFrom w 1 n

/-- The elements at the even positions `0, 2, 4, ...` of a buffer. -/
def evens {α : Type} : List α → List α
  | [] => []
  | [a] => [a]
  | a :: _ :: rest => a :: evens rest

/-- The elements at the odd positions `1, 3, 5, ...` of a buffer. -/
def odds {α : Type} : List α → List α
  | [] => []
  | [_] => []
  | _ :: b :: rest => b :: odds rest

/-- Modelled from the spec: the reordering of `GFFTswap<N,T>` (declared in a
header that is not in `src/`), the "bit-reversal/data-reordering" of spec 1: a buffer of at
most one element stays as it is; otherwise the elements at even positions,
reordered as a buffer of `N/2` elements, come first and those at odd positions,
reordered alike, follow. The first argument bounds the depth of the recursion. -/
def GFFTswap.reorder {α : Type} : Nat → Nat → List α → List α
  | 0, _, x => x
  | fuel + 1, N, x =>
    if N ≤ 1 then x
    else GFFTswap.reorder fuel (N / 2) (evens x) ++ GFFTswap.reorder fuel (N / 2) (odds x)

/-- Modelled from the spec: `GFFTswap<N,T>::apply` (declared in a header that
is not in `src/`) on a buffer of `N` elements. -/
def GFFTswap.apply {α : Type} (N : Nat) (x : List α) : List α :=
  GFFTswap.reorder N N x

/-- Modelled from the spec: the recursion of `InTime<N,T,S>` (`gfftalg.h`, not
in `src/`), which "recursively decomposes an N-point transform into two
(N/2)-point transforms (classic radix-2 decomposition)" (spec 4.2): a transform
of at most one point is the identity; otherwise both halves of the buffer are
transformed and then combined, `lo[k] + w^k * hi[k]` in the first half and
`lo[k] - w^k * hi[k]` in the second, with `w = root N`. The first argument
bounds the depth of the recursion. -/
def InTime.split {α : Type} [Add α] [Sub α] [Mul α] [One α] (root : Nat → α) :
    Nat → Nat → List α → List α
  | 0, _, x => x
  | fuel + 1, N, x =>
    if N ≤ 1 then x
    else
      let lo := InTime.split root fuel (N / 2) (x.take (N / 2))
      let hi := InTime.split root fuel (N / 2) (x.drop (N / 2))
      let t := List.zipWith (fun w h => w * h) (twiddles (root N) (N / 2)) hi
      List.zipWith (fun l u => l + u) lo t ++ List.zipWith (fun l u => l - u) lo t

/-- Modelled from the spec: `InTime<N,T,S>::apply` (`gfftalg.h`, not in `src/`)
on a buffer of `N` elements. -/
def InTime.apply {α : Type} [Add α] [Sub α] [Mul α] [One α] (root : Nat → α) (N : Nat)
    (x : List α) : List α :=
  InTime.split root N N x

/-- Modelled from the spec: the recursion of `InFreq<N,T,S>` (`gfftalg.h`, not
in `src/`), the radix-2 decomposition of spec 4.2 with the halves combined
before they are transformed: the sums `lo[k] + hi[k]` and the differences
`(lo[k] - hi[k]) * w^k`, with `w = root N`, are each transformed as a buffer of
`N/2` points; a transform of at most one point is the identity. The first
argument bounds the depth of the recursion. -/
def InFreq.split {α : Type} [Add α] [Sub α] [Mul α] [One α] (root : Nat → α) :
    Nat → Nat → List α → List α
  | 0, _, x => x
  | fuel + 1, N, x =>
    if N ≤ 1 then x
    else
      let lo := x.take (N / 2)
      let hi := x.drop (N / 2)
      let s := List.zipWith (fun l h => l + h) lo hi
      let d := List.zipWith (fun u w => u * w)
        (List.zipWith (fun l h => l - h) lo hi) (twiddles (root N) (N / 2))
      InFreq.split root fuel (N / 2) s ++ InFreq.split root fuel (N / 2) d

/-- Modelled from the spec: `InFreq<N,T,S>::apply` (`gfftalg.h`, not in `src/`)
on a buffer of `N` elements. -/
def InFreq.apply {α : Type} [Add α] [Sub α] [Mul α] [One α] (root : Nat → α) (N : Nat)
    (x : List α) : List α :=
  InFreq.split root N N x

/-- Modelled from the spec: `apply` of every stage class on a buffer of exact
values (`gfftalg.h` and `gfftstdalg.h` are not in `src/`). `root S N` is the
root of unity that the recursive-split stage of sign `S` and length `N` starts
its twiddle recursion from. The forward direction stage leaves the buffer as it
is (spec 8: the forward transform of `[a, b]` is `[a+b, a-b]`, unscaled). What
the spec leaves open or out of scope stays a parameter: `backward N`, the
normalisation of `Backward<N,T>` (spec 9), and `separate N S`, the arithmetic
of `Separate<N,T,S>` (spec 1). -/
def Stage.apply {α : Type} [Add α] [Sub α] [Mul α] [One α] (root : Int → Nat → α)
    (backward : Nat → List α → List α) (separate : Nat → Int → List α → List α) :
    Stage → List α → List α
  | .GFFTswap N _, x => GFFTswap.apply N x
  | .InTime N _ S, x => InTime.apply (root S) N x
  | .InFreq N _ S, x => InFreq.apply (root S) N x
  | .Separate N _ S, x => separate N S x
  | .Direction (.Forward _ _), x => x
  | .Direction (.Backward N _), x => backward N x

end DFT

namespace DFT

/-! ## Lemmas on typelists and pipelines -/

theorem Loki.TL.Append_eq {α : Type} (L : Typelist α) (T : α) :
    Loki.TL.Append L T = L ++ [T] := by
  induction L with
  | nil => rfl
  | cons Head Tail ih => simp [Loki.TL.Append, ih]

theorem PoliciesHandler.apply_eq_foldl {Buf : Type} (stage : Stage → Buf → Buf)
    (L : Typelist Stage) (data : Buf) :
    PoliciesHandler.apply stage L data = List.foldl (fun buf s => stage s buf) data L := by
  induction L generalizing data with
  | nil => rfl
  | cons Head Tail ih => simp [PoliciesHandler.apply, ih]

theorem PoliciesHandler.apply_append {Buf : Type} (stage : Stage → Buf → Buf)
    (L1 L2 : Typelist Stage) (data : Buf) :
    PoliciesHandler.apply stage (L1 ++ L2) data =
      PoliciesHandler.apply stage L2 (PoliciesHandler.apply stage L1 data) := by
  induction L1 generalizing data with
  | nil => rfl
  | cons Head Tail ih => simp [PoliciesHandler.apply, ih]

theorem GFFT.N_eq_of_le (g : GFFT) (hP : g.P ≤ 30) : g.N = 2 ^ g.P := by
  have h1 : 2 ^ g.P < 2 ^ 32 := Nat.pow_lt_pow_right (by decide) (by omega)
  simp only [GFFT.N, wordSize, wordBits, Nat.one_shiftLeft]
  exact Nat.mod_eq_of_lt h1

theorem GFFT.N_eq_of_builds (g : GFFT) (hB : g.Builds) : g.N = 2 ^ g.P := by
  have hP : g.P < 32 := hB
  have h1 : 2 ^ g.P < 2 ^ 32 := Nat.pow_lt_pow_right (by decide) hP
  simp only [GFFT.N, wordSize, wordBits, Nat.one_shiftLeft]
  exact Nat.mod_eq_of_lt h1

theorem GFFT.Alg_size (g : GFFT) : ∀ s ∈ g.Alg, s.N = g.N := by
  obtain ⟨P, T, Ty, Dec, Dir, FP, IDN⟩ := g
  cases Ty <;> cases Dec <;> cases Dir <;>
    simp [GFFT.Alg, GFFT.TList, GFFT.Sep, GFFT.Swap, GFFT.Dir, TransformType.Algorithm,
      COMPLEX.Algorithm, REAL.Algorithm, Direction.AddSeparator, FORWARD.AddSeparator,
      BACKWARD.AddSeparator, Loki.TL.Append, Decimation.List, INTIME.List, INFREQ.List,
      Direction.Type_, FORWARD.Type_, BACKWARD.Type_, Stage.N, DirStage.N]

theorem GFFTList_range (T : CppType) (Ty : TransformType) (Dec : Decimation)
    (Dir : Direction) (FP : FactoryPolicy) :
    ∀ (n depth Begin : Nat), n ≤ depth → Begin + n < wordSize →
      GFFTList depth Begin (Begin + n) T Ty Dec Dir FP =
        some ((List.range' Begin n).map (fun P => GFFT.inst P T Ty Dec Dir FP)) := by
  intro n
  induction n with
  | zero =>
    intro depth Begin _ _
    cases depth <;> simp [GFFTList]
  | succ n ih =>
    intro depth Begin hd hB
    obtain ⟨d, rfl⟩ : ∃ d, depth = d + 1 := ⟨depth - 1, by omega⟩
    have hne : ¬ Begin = Begin + (n + 1) := by omega
    have hmod : (Begin + 1) % wordSize = Begin + 1 := Nat.mod_eq_of_lt (by omega)
    have hrec := ih d (Begin + 1) (by omega) (by omega)
    have hend : Begin + 1 + n = Begin + (n + 1) := by omega
    rw [hend] at hrec
    simp only [GFFTList, hne, hmod, hrec, if_false]
    rfl

theorem GFFTList_none_of_lt (T : CppType) (Ty : TransformType) (Dec : Decimation)
    (Dir : Direction) (FP : FactoryPolicy) :
    ∀ (depth Begin End : Nat), Begin ≤ End → End < wordSize → depth < End - Begin →
      GFFTList depth Begin End T Ty Dec Dir FP = none := by
  intro depth
  induction depth with
  | zero =>
    intro Begin End _ _ hd
    have hne : ¬ Begin = End := by omega
    simp [GFFTList, hne]
  | succ d ih =>
    intro Begin End hle hEnd hd
    have hne : ¬ Begin = End := by omega
    have hmod : (Begin + 1) % wordSize = Begin + 1 := Nat.mod_eq_of_lt (by omega)
    have hrec := ih (Begin + 1) End (by omega) hEnd (by omega)
    simp [GFFTList, hne, hmod, hrec]

theorem GFFTList_wrap (T : CppType) (Ty : TransformType) (Dec : Decimation)
    (Dir : Direction) (FP : FactoryPolicy) (End : Nat) :
    ∀ (j depth Begin : Nat), Begin + (j + 1) = wordSize → End < Begin →
      GFFTList depth Begin End T Ty Dec Dir FP =
        if depth < j + 1 then none
        else (GFFTList (depth - (j + 1)) 0 End T Ty Dec Dir FP).map
          (fun R => (List.range' Begin (j + 1)).map
            (fun P => GFFT.inst P T Ty Dec Dir FP) ++ R) := by
  intro j
  induction j with
  | zero =>
    intro depth Begin hB hinv
    have hne : ¬ Begin = End := by omega
    have hmod : (Begin + 1) % wordSize = 0 := by
      have h1 : Begin + 1 = wordSize := by omega
      rw [h1]
      exact Nat.mod_self _
    cases depth with
    | zero => simp [GFFTList, hne]
    | succ d =>
      simp only [GFFTList, hne, hmod, if_false]
      cases hrec : GFFTList d 0 End T Ty Dec Dir FP <;> simp [List.range', hrec]
  | succ j ih =>
    intro depth Begin hB hinv
    have hne : ¬ Begin = End := by omega
    have hmod : (Begin + 1) % wordSize = Begin + 1 := Nat.mod_eq_of_lt (by omega)
    cases depth with
    | zero => simp [GFFTList, hne]
    | succ d =>
      have hrec := ih d (Begin + 1) (by omega) (by omega)
      simp only [GFFTList, hne, hmod, if_false, hrec]
      by_cases hd : d < j + 1
      · have hd2 : d + 1 < j + 1 + 1 := by omega
        simp [hd, hd2]
      · have hd2 : ¬ d + 1 < j + 1 + 1 := by omega
        have hsub : d + 1 - (j + 1 + 1) = d - (j + 1) := by omega
        simp only [hd, hd2, if_false, hsub]
        cases hz : GFFTList (d - (j + 1)) 0 End T Ty Dec Dir FP with
        | none => simp
        | some R =>
          simp only [Option.map_some', Option.some.injEq]
          rw [List.range'_succ Begin (j + 1)]
          simp

/-! ## Lemmas on the registry -/

theorem GFFTList_mem (T : CppType) (Ty : TransformType) (Dec : Decimation)
    (Dir : Direction) (FP : FactoryPolicy) :
    ∀ (depth Begin End : Nat) (L : Typelist GFFT),
      GFFTList depth Begin End T Ty Dec Dir FP = some L →
      (∀ H ∈ L, H = GFFT.inst H.P T Ty Dec Dir FP) ∧
      (Begin ≤ End → End < wordSize → ∀ H ∈ L, Begin ≤ H.P ∧ H.P < End) := by
  intro depth
  induction depth with
  | zero =>
    intro Begin End L h
    by_cases hBE : Begin = End
    · simp [GFFTList, hBE] at h
      subst h
      simp
    · simp [GFFTList, hBE] at h
  | succ d ih =>
    intro Begin End L h
    by_cases hBE : Begin = End
    · simp [GFFTList, hBE] at h
      subst h
      simp
    · simp only [GFFTList, hBE, if_false] at h
      cases hrec : GFFTList d ((Begin + 1) % wordSize) End T Ty Dec Dir FP with
      | none => simp [hrec] at h
      | some R =>
        simp only [hrec, Option.some.injEq] at h
        subst h
        obtain ⟨h1, h2⟩ := ih _ _ _ hrec
        refine ⟨?_, ?_⟩
        · intro H hH
          rcases List.mem_cons.mp hH with rfl | hH
          · rfl
          · exact h1 H hH
        · intro hle hEnd H hH
          have hmod : (Begin + 1) % wordSize = Begin + 1 := Nat.mod_eq_of_lt (by omega)
          rw [hmod] at h2
          rcases List.mem_cons.mp hH with rfl | hH
          · exact ⟨Nat.le_refl _, by simp only [GFFT.inst]; omega⟩
          · have := h2 (by omega) hEnd H hH
            omega

theorem Factory.find_append_of_some (f g : Factory) (id : Nat) (c : GFFT)
    (h : f.find id = some c) : Factory.find (f ++ g) id = some c := by
  induction f with
  | nil => simp [Factory.find] at h
  | cons e rest ih =>
    obtain ⟨k, d⟩ := e
    by_cases hk : k = id
    · simp [Factory.find, hk] at h ⊢
      exact h
    · simp only [Factory.find, hk, if_false, List.cons_append] at h ⊢
      exact ih h

theorem Factory.find_append_of_none (f g : Factory) (id : Nat)
    (h : f.find id = none) : Factory.find (f ++ g) id = g.find id := by
  induction f with
  | nil => rfl
  | cons e rest ih =>
    obtain ⟨k, d⟩ := e
    by_cases hk : k = id
    · simp [Factory.find, hk] at h
    · simp only [Factory.find, hk, if_false, List.cons_append] at h ⊢
      exact ih h

theorem Factory.Register_find_self (f : Factory) (id : Nat) (c : GFFT) :
    ∃ d, (f.Register id c).find id = some d := by
  cases h : f.find id with
  | some d => exact ⟨d, by simp [Factory.Register, h]⟩
  | none =>
    refine ⟨c, ?_⟩
    simp only [Factory.Register, h]
    rw [Factory.find_append_of_none f _ id h]
    simp [Factory.find]

theorem Factory.Register_find_of_some (f : Factory) (id j : Nat) (c d : GFFT)
    (h : f.find j = some d) : (f.Register id c).find j = some d := by
  cases hid : f.find id with
  | some e => simpa [Factory.Register, hid] using h
  | none =>
    simp only [Factory.Register, hid]
    exact Factory.find_append_of_some f _ j d h

theorem Factory.Register_find (f : Factory) (id j : Nat) (c d : GFFT)
    (h : (f.Register id c).find j = some d) :
    f.find j = some d ∨ (j = id ∧ d = c) := by
  cases hid : f.find id with
  | some e =>
    simp only [Factory.Register, hid] at h
    exact Or.inl h
  | none =>
    simp only [Factory.Register, hid] at h
    cases hj : f.find j with
    | some e =>
      rw [Factory.find_append_of_some f _ j e hj] at h
      exact Or.inl h
    | none =>
      rw [Factory.find_append_of_none f _ j hj] at h
      by_cases hk : id = j
      · simp [Factory.find, hk] at h
        exact Or.inr ⟨hk.symm, h.symm⟩
      · simp [Factory.find, hk] at h

theorem Factory.Register_noop (f : Factory) (id : Nat) (c d : GFFT)
    (h : f.find id = some d) : f.Register id c = f := by
  simp [Factory.Register, h]

theorem Factory.find_eq_none_iff (f : Factory) (id : Nat) :
    f.find id = none ↔ id ∉ f.keys := by
  induction f with
  | nil => simp [Factory.find, Factory.keys]
  | cons e rest ih =>
    obtain ⟨k, d⟩ := e
    by_cases hk : k = id
    · simp [Factory.find, Factory.keys, hk]
    · have hk2 : ¬ id = k := fun h => hk h.symm
      simp only [Factory.find, hk, if_false, ih]
      simp [Factory.keys, hk2]

theorem Factory.Register_keys_nodup (f : Factory) (id : Nat) (c : GFFT)
    (h : f.keys.Nodup) : (f.Register id c).keys.Nodup := by
  cases hid : f.find id with
  | some e => simpa [Factory.Register, hid] using h
  | none =>
    have hnot : id ∉ f.keys := (Factory.find_eq_none_iff f id).mp hid
    have hkeys : Factory.keys (f ++ [(id, c)]) = f.keys ++ [id] := by simp [Factory.keys]
    simp only [Factory.Register, hid]
    rw [hkeys]
    exact List.Nodup.append h (List.nodup_singleton id) (List.disjoint_singleton.mpr hnot)

theorem FactoryInit.apply_keys_nodup (L : Typelist GFFT) :
    ∀ (f : Factory), f.keys.Nodup → (FactoryInit.apply L f).keys.Nodup := by
  induction L with
  | nil => intro f h; exact h
  | cons H Tl ih =>
    intro f h
    exact ih _ (Factory.Register_keys_nodup f H.ID H h)

theorem FactoryInit.apply_find_of_some (L : Typelist GFFT) :
    ∀ (f : Factory) (j : Nat) (d : GFFT), f.find j = some d →
      (FactoryInit.apply L f).find j = some d := by
  induction L with
  | nil => intro f j d h; exact h
  | cons H Tl ih =>
    intro f j d h
    exact ih _ j d (Factory.Register_find_of_some f H.ID j H d h)

theorem FactoryInit.apply_find_mem (L : Typelist GFFT) :
    ∀ (f : Factory) (H : GFFT), H ∈ L → ∃ d, (FactoryInit.apply L f).find H.ID = some d := by
  induction L with
  | nil => intro f H hH; simp at hH
  | cons H0 Tl ih =>
    intro f H hH
    rcases List.mem_cons.mp hH with rfl | hH
    · obtain ⟨d, hd⟩ := Factory.Register_find_self f H.ID H
      exact ⟨d, FactoryInit.apply_find_of_some Tl _ _ d hd⟩
    · exact ih _ H hH

theorem FactoryInit.apply_find (L : Typelist GFFT) :
    ∀ (f : Factory) (j : Nat) (d : GFFT), (FactoryInit.apply L f).find j = some d →
      f.find j = some d ∨ ∃ H ∈ L, H.ID = j ∧ d = H := by
  induction L with
  | nil => intro f j d h; exact Or.inl h
  | cons H0 Tl ih =>
    intro f j d h
    rcases ih _ j d h with h1 | ⟨H, hH, hid, hd⟩
    · rcases Factory.Register_find f H0.ID j H0 d h1 with h2 | ⟨h2, h3⟩
      · exact Or.inl h2
      · exact Or.inr ⟨H0, List.mem_cons_self _ _, h2.symm, h3⟩
    · exact Or.inr ⟨H, List.mem_cons_of_mem _ hH, hid, hd⟩

theorem FactoryInit.apply_noop (L : Typelist GFFT) :
    ∀ (f : Factory), (∀ H ∈ L, ∃ d, f.find H.ID = some d) → FactoryInit.apply L f = f := by
  induction L with
  | nil => intro f _; rfl
  | cons H0 Tl ih =>
    intro f h
    obtain ⟨d, hd⟩ := h H0 (List.mem_cons_self _ _)
    simp only [FactoryInit.apply, Factory.Register_noop f H0.ID H0 d hd]
    exact ih f (fun H hH => h H (List.mem_cons_of_mem _ hH))

theorem GFFTList_mem_of_range (T : CppType) (Ty : TransformType) (Dec : Decimation)
    (Dir : Direction) (FP : FactoryPolicy) (depth Begin End id : Nat) (L : Typelist GFFT)
    (hL : GFFTList depth Begin End T Ty Dec Dir FP = some L) (hEnd : End < wordSize)
    (hlo : Begin ≤ id) (hhi : id < End) : GFFT.inst id T Ty Dec Dir FP ∈ L := by
  by_cases hd : depth < End - Begin
  · rw [GFFTList_none_of_lt T Ty Dec Dir FP depth Begin End (by omega) hEnd hd] at hL
    exact Option.noConfusion hL
  · have h := GFFTList_range T Ty Dec Dir FP (End - Begin) depth Begin (by omega) (by omega)
    have hE : Begin + (End - Begin) = End := by omega
    rw [hE, hL] at h
    rw [Option.some.inj h]
    refine List.mem_map.mpr ⟨id, ?_, rfl⟩
    simp only [List.mem_range'_1]
    omega

theorem FactoryInit.apply_eq_append (L : Typelist GFFT) :
    ∀ (f : Factory), (L.map GFFT.ID).Nodup → (∀ H ∈ L, H.ID ∉ f.keys) →
      FactoryInit.apply L f = f ++ L.map (fun H => (H.ID, H)) := by
  induction L with
  | nil => intro f _ _; simp [FactoryInit.apply]
  | cons H Tl ih =>
    intro f hnd hnew
    have hnd2 := List.nodup_cons.mp hnd
    have hfind : f.find H.ID = none :=
      (Factory.find_eq_none_iff f H.ID).mpr (hnew H (List.mem_cons_self _ _))
    have hreg : f.Register H.ID H = f ++ [(H.ID, H)] := by simp [Factory.Register, hfind]
    have hkeys : Factory.keys (f ++ [(H.ID, H)]) = f.keys ++ [H.ID] := by simp [Factory.keys]
    simp only [FactoryInit.apply, hreg]
    rw [ih (f ++ [(H.ID, H)]) hnd2.2 ?_]
    · simp
    · intro G hG
      rw [hkeys]
      intro hmem
      rcases List.mem_append.mp hmem with h1 | h1
      · exact hnew G (List.mem_cons_of_mem _ hG) h1
      · have hGH : G.ID = H.ID := by simpa using h1
        exact hnd2.1 (hGH ▸ List.mem_map_of_mem GFFT.ID hG)

theorem GFFT_Singleton.Instance_eq (depth Min Max : Nat) (T : CppType) (Ty : TransformType)
    (Dec : Decimation) (Dir : Direction) (w : World) (L : Typelist GFFT)
    (hL : GFFT_Singleton.FInit depth Min Max T Ty Dec Dir = some L) :
    GFFT_Singleton.Instance depth Min Max T Ty Dec Dir w =
      some (FactoryInit.apply L ((w ⟨T, Ty, Dec, Dir⟩).getD []),
        Function.update w ⟨T, Ty, Dec, Dir⟩
          (some (FactoryInit.apply L ((w ⟨T, Ty, Dec, Dir⟩).getD [])))) := by
  simp only [GFFT_Singleton.Instance, hL]
  cases hk : w ⟨T, Ty, Dec, Dir⟩ with
  | some f => simp [Base.Instance, hk]
  | none => simp [Base.Instance, hk]

theorem GFFT_Singleton.Instance_some (depth Min Max : Nat) (T : CppType) (Ty : TransformType)
    (Dec : Decimation) (Dir : Direction) (w : World) (r : Factory × World)
    (h : GFFT_Singleton.Instance depth Min Max T Ty Dec Dir w = some r) :
    ∃ L, GFFT_Singleton.FInit depth Min Max T Ty Dec Dir = some L ∧
      r = (FactoryInit.apply L ((w ⟨T, Ty, Dec, Dir⟩).getD []),
        Function.update w ⟨T, Ty, Dec, Dir⟩
          (some (FactoryInit.apply L ((w ⟨T, Ty, Dec, Dir⟩).getD [])))) := by
  cases hL : GFFT_Singleton.FInit depth Min Max T Ty Dec Dir with
  | none => simp [GFFT_Singleton.Instance, hL] at h
  | some L =>
    refine ⟨L, rfl, ?_⟩
    rw [GFFT_Singleton.Instance_eq depth Min Max T Ty Dec Dir w L hL] at h
    exact (Option.some.inj h).symm

theorem GFFT_Singleton.Instance_Wf (depth Min Max : Nat) (T : CppType) (Ty : TransformType)
    (Dec : Decimation) (Dir : Direction) (w : World) (r : Factory × World)
    (hw : w.Wf) (h : GFFT_Singleton.Instance depth Min Max T Ty Dec Dir w = some r) :
    r.2.Wf ∧ r.1.Wf ⟨T, Ty, Dec, Dir⟩ := by
  obtain ⟨L, hL, rfl⟩ := GFFT_Singleton.Instance_some depth Min Max T Ty Dec Dir w r h
  have hinst := (GFFTList_mem T Ty Dec Dir (FactoryPolicy.AbstractFFT T) depth Min Max L hL).1
  have hf : Factory.Wf ⟨T, Ty, Dec, Dir⟩
      (FactoryInit.apply L ((w ⟨T, Ty, Dec, Dir⟩).getD [])) := by
    refine ⟨?_, ?_⟩
    · apply FactoryInit.apply_keys_nodup
      cases hk : w ⟨T, Ty, Dec, Dir⟩ with
      | some f => exact (hw _ f hk).1
      | none => exact List.nodup_nil
    intro id c hc
    rcases FactoryInit.apply_find L _ id c hc with h0 | ⟨H, hH, hid, rfl⟩
    · cases hk : w ⟨T, Ty, Dec, Dir⟩ with
      | some f =>
        rw [hk] at h0
        exact (hw _ f hk).2 id c h0
      | none =>
        rw [hk] at h0
        simp [Factory.find] at h0
    · have hc := hinst c hH
      have hP : c.P = id := by
        rw [hc] at hid
        exact hid
      rw [← hP]
      exact hc
  refine ⟨?_, hf⟩
  intro k f hk
  by_cases hkk : k = ⟨T, Ty, Dec, Dir⟩
  · subst hkk
    simp only [Function.update_same, Option.some.injEq] at hk
    subst hk
    exact hf
  · simp only [Function.update_noteq hkk] at hk
    exact hw k f hk

theorem Reachable.world_wf (w : World) (h : Reachable w) : w.Wf := by
  induction h with
  | init =>
    intro k f hk
    simp [World.init] at hk
  | step depth Min Max T Ty Dec Dir w r _ hI ih =>
    exact (GFFT_Singleton.Instance_Wf depth Min Max T Ty Dec Dir w r ih hI).1

/-! ## Pipeline assembly: C1 - C6 -/

/-- C1: `FORWARD::AddSeparator<L,s>` is `L` with `s` appended as the last
stage, `BACKWARD::AddSeparator<L,s>` is `L` with `s` prepended as the first
stage; removing the separator again (the last stage, resp. the first) leaves
`L`, so the stages of `L` keep their relative order. -/
theorem AddSeparator_position {α : Type} (L : Typelist α) (s : α) :
    FORWARD.AddSeparator L s = L ++ [s] ∧
    BACKWARD.AddSeparator L s = s :: L ∧
    (FORWARD.AddSeparator L s).dropLast = L ∧
    (BACKWARD.AddSeparator L s).tail = L := by
  refine ⟨?_, rfl, ?_, rfl⟩
  · exact Loki.TL.Append_eq L s
  · simp [FORWARD.AddSeparator, Loki.TL.Append_eq]

/-- C2: for every length `N`, reorder stage `Swap` and direction stage `Dir`,
`INTIME::List` is the 3-stage sequence `[Swap, InTime<N,T,Dir::Sign>, Dir]` and
`INFREQ::List` is the 3-stage sequence `[InFreq<N,T,Dir::Sign>, Swap, Dir]`. -/
theorem Decimation_List_shape (N : Nat) (T : CppType) (Swap : Stage) (Dir : DirStage) :
    INTIME.List N T Swap Dir = [Swap, Stage.InTime N T Dir.Sign, Stage.Direction Dir] ∧
    INFREQ.List N T Swap Dir = [Stage.InFreq N T Dir.Sign, Swap, Stage.Direction Dir] ∧
    (INTIME.List N T Swap Dir).length = 3 ∧
    (INFREQ.List N T Swap Dir).length = 3 :=
  ⟨rfl, rfl, rfl, rfl⟩

/-- C3: for every direction `D`, pipeline `L` and separator `s`,
`COMPLEX::Algorithm<D,L,s>` is `L` whatever `D` and `s` are, and
`REAL::Algorithm<D,L,s>` is `D::AddSeparator<L,s>`: `L` followed by `s` for
`FORWARD`, `s` followed by `L` for `BACKWARD`. -/
theorem Algorithm_rule {α : Type} (D : Direction) (L : Typelist α) (s : α) :
    COMPLEX.Algorithm D L s = L ∧
    (∀ (D2 : Direction) (s2 : α), COMPLEX.Algorithm D2 L s2 = COMPLEX.Algorithm D L s) ∧
    REAL.Algorithm D L s = D.AddSeparator L s ∧
    REAL.Algorithm Direction.FORWARD L s = L ++ [s] ∧
    REAL.Algorithm Direction.BACKWARD L s = s :: L := by
  refine ⟨rfl, fun _ _ => rfl, rfl, ?_, rfl⟩
  exact Loki.TL.Append_eq L s

/-- C4: for every exponent `P` and every choice of `(Type, Decimation,
Direction)`, in the kernel `GFFT<P,...>` (a class that builds) the length `N` is
`2 ^ P`, the stored pipeline `Alg` is
`Type::Algorithm<Direction, Decimation::List<N,T,Swap_N,Dir_N>, Sep_N>` with
that `N` (the decimation ordering is built first, the domain rule is applied to
it), and every stage of the pipeline, reorder, recursive-split, direction and,
if present, separator, is sized to the same `N = 2 ^ P`. -/
theorem GFFT_Alg_composition (g : GFFT) (hB : g.Builds) :
    g.N = 2 ^ g.P ∧
    g.Alg = g.Ty.Algorithm g.Direction
      (g.Decimation.List (2 ^ g.P) g.T (Stage.GFFTswap (2 ^ g.P) g.T)
        (g.Direction.Type_ (2 ^ g.P) g.T))
      (Stage.Separate (2 ^ g.P) g.T (g.Direction.Type_ (2 ^ g.P) g.T).Sign) ∧
    (∀ s ∈ g.Alg, s.N = 2 ^ g.P) := by
  have hN := g.N_eq_of_builds hB
  refine ⟨hN, ?_, fun s hs => ?_⟩
  · rw [← hN]
    rfl
  · rw [g.Alg_size s hs, hN]

/-- C4, at the real inverse in-time kernel of exponent 3: its length is
`8 = 2 ^ 3` and its four stages, the separator among them, are sized `2 ^ 3`. -/
theorem GFFT_Alg_composition_witness :
    (GFFT.inst 3 "double" TransformType.REAL Decimation.INTIME Direction.BACKWARD
        FactoryPolicy.Empty).Builds ∧
    (GFFT.inst 3 "double" TransformType.REAL Decimation.INTIME Direction.BACKWARD
        FactoryPolicy.Empty).N = 2 ^ 3 ∧
    (GFFT.inst 3 "double" TransformType.REAL Decimation.INTIME Direction.BACKWARD
        FactoryPolicy.Empty).Alg.map Stage.N = [8, 8, 8, 8] ∧
    Stage.N (Stage.Separate 8 "double" (-1)) = 2 ^ 3 :=
  ⟨by decide,
   (GFFT_Alg_composition (GFFT.inst 3 "double" TransformType.REAL Decimation.INTIME
      Direction.BACKWARD FactoryPolicy.Empty) (by decide)).1,
   by decide,
   (GFFT_Alg_composition (GFFT.inst 3 "double" TransformType.REAL Decimation.INTIME
      Direction.BACKWARD FactoryPolicy.Empty) (by decide)).2.2 _ (by decide)⟩

/-- C5: in every kernel, each stage of the pipeline that has a sign (the
recursive-split stage, the separator of a `REAL` kernel, the direction stage)
has the sign of the kernel's direction stage `Dir = Direction::Type<N,T>`; the
recursive-split stage and, for `REAL`, the separator are in the pipeline with
that sign; it is `+1` throughout a `FORWARD` kernel and `-1` throughout a
`BACKWARD` kernel. -/
theorem GFFT_sign_uniform (g : GFFT) :
    (∀ s ∈ g.Alg, ∀ σ : Int, s.Sign = some σ → σ = g.Dir.Sign) ∧
    (Stage.InTime g.N g.T g.Dir.Sign ∈ g.Alg ∨ Stage.InFreq g.N g.T g.Dir.Sign ∈ g.Alg) ∧
    (g.Ty = TransformType.REAL → Stage.Separate g.N g.T g.Dir.Sign ∈ g.Alg) ∧
    (g.Direction = Direction.FORWARD → g.Dir.Sign = 1) ∧
    (g.Direction = Direction.BACKWARD → g.Dir.Sign = -1) := by
  obtain ⟨P, T, Ty, Dec, Dir, FP, IDN⟩ := g
  cases Ty <;> cases Dec <;> cases Dir <;>
    simp [GFFT.Alg, GFFT.TList, GFFT.Sep, GFFT.Swap, GFFT.Dir, TransformType.Algorithm,
      COMPLEX.Algorithm, REAL.Algorithm, Direction.AddSeparator, FORWARD.AddSeparator,
      BACKWARD.AddSeparator, Loki.TL.Append, Decimation.List, INTIME.List, INFREQ.List,
      Direction.Type_, FORWARD.Type_, BACKWARD.Type_, Stage.Sign, DirStage.Sign]

/-- C5, at the real inverse in-frequency kernel of exponent 3: its separator
stage carries `-1`, the sign of its direction stage. -/
theorem GFFT_sign_uniform_witness :
    Stage.Separate 8 "double" (-1) ∈
      (GFFT.inst 3 "double" TransformType.REAL Decimation.INFREQ Direction.BACKWARD
        FactoryPolicy.Empty).Alg ∧
    (-1 : Int) = (GFFT.inst 3 "double" TransformType.REAL Decimation.INFREQ
        Direction.BACKWARD FactoryPolicy.Empty).Dir.Sign :=
  ⟨by decide,
   (GFFT_sign_uniform (GFFT.inst 3 "double" TransformType.REAL Decimation.INFREQ
      Direction.BACKWARD FactoryPolicy.Empty)).1 (Stage.Separate 8 "double" (-1))
      (by decide) (-1) rfl⟩

/-- C6: for every kernel and every buffer, `fft` is the left-to-right
application of the stages of the pipeline in their stored order, each stage
receiving the buffer as the previous one left it; for a pipeline of three
stages the result is `s3 (s2 (s1 data))`, for one of four stages
`s4 (s3 (s2 (s1 data)))`. -/
theorem GFFT_fft_sequential {Buf : Type} (stage : Stage → Buf → Buf) (g : GFFT)
    (data : Buf) :
    g.fft stage data = List.foldl (fun buf s => stage s buf) data g.Alg ∧
    (∀ s1 s2 s3 : Stage, g.Alg = [s1, s2, s3] →
      g.fft stage data = stage s3 (stage s2 (stage s1 data))) ∧
    (∀ s1 s2 s3 s4 : Stage, g.Alg = [s1, s2, s3, s4] →
      g.fft stage data = stage s4 (stage s3 (stage s2 (stage s1 data)))) := by
  refine ⟨PoliciesHandler.apply_eq_foldl stage g.Alg data, ?_, ?_⟩
  · intro s1 s2 s3 h
    simp [GFFT.fft, h, PoliciesHandler.apply]
  · intro s1 s2 s3 s4 h
    simp [GFFT.fft, h, PoliciesHandler.apply]

/-- C6, at the complex forward in-frequency kernel of exponent 1 with stages
that append their own length to a log: the log shows the three stages in the
stored order. -/
theorem GFFT_fft_sequential_witness :
    GFFT.fft (fun s (log : List Stage) => log ++ [s])
      (GFFT.inst 1 "double" TransformType.COMPLEX Decimation.INFREQ Direction.FORWARD
        FactoryPolicy.Empty) [] =
    [Stage.InFreq 2 "double" 1, Stage.GFFTswap 2 "double",
      Stage.Direction (DirStage.Forward 2 "double")] :=
  ((GFFT_fft_sequential (fun s (log : List Stage) => log ++ [s])
      (GFFT.inst 1 "double" TransformType.COMPLEX Decimation.INFREQ Direction.FORWARD
        FactoryPolicy.Empty) []).2.1 (Stage.InFreq 2 "double" 1) (Stage.GFFTswap 2 "double")
      (Stage.Direction (DirStage.Forward 2 "double")) (by decide)).trans (by decide)

/-! ## The length-range generator: C7 -/

/-- C7: for exponents `Begin ≤ End` (values of an `unsigned`), `GFFTList`
terminates: within any bound of at least `End - Begin` nested instantiations it
yields the kernel builders `GFFT<P,T,Type,Decimation,Direction,FactoryPolicy>`
for `P = Begin, Begin+1, ..., End-1` in ascending order and nothing else, that
is `End - Begin` builders, one per exponent of the range, all with the same
`(T, Type, Decimation, Direction, FactoryPolicy)`; for `Begin = End` the family
is empty. -/
theorem GFFTList_family (depth Begin End : Nat) (T : CppType) (Ty : TransformType)
    (Dec : Decimation) (Dir : Direction) (FP : FactoryPolicy)
    (hle : Begin ≤ End) (hEnd : End < wordSize) (hdepth : End - Begin ≤ depth) :
    ∃ L : Typelist GFFT,
      GFFTList depth Begin End T Ty Dec Dir FP = some L ∧
      L = (List.range' Begin (End - Begin)).map (fun P => GFFT.inst P T Ty Dec Dir FP) ∧
      L.length = End - Begin ∧
      L.map GFFT.P = List.range' Begin (End - Begin) ∧
      (∀ g ∈ L, g.T = T ∧ g.Ty = Ty ∧ g.Decimation = Dec ∧ g.Direction = Dir ∧
        g.FactoryPolicy = FP) ∧
      (Begin = End → L = []) := by
  have h := GFFTList_range T Ty Dec Dir FP (End - Begin) depth Begin hdepth (by omega)
  have hE : Begin + (End - Begin) = End := by omega
  rw [hE] at h
  refine ⟨_, h, rfl, by simp, ?_, ?_, ?_⟩
  · simp [List.map_map, Function.comp_def, GFFT.inst]
  · intro g hg
    simp only [List.mem_map] at hg
    obtain ⟨P, _, rfl⟩ := hg
    simp [GFFT.inst]
  · intro hBE
    simp [hBE]

/-- C7, at `GFFTList<2,5,double,REAL,INFREQ,FORWARD,Empty>` with three nested
instantiations allowed: the family has the builders for exponents 2, 3, 4. -/
theorem GFFTList_family_witness :
    ∃ L : Typelist GFFT,
      GFFTList 3 2 5 "double" TransformType.REAL Decimation.INFREQ Direction.FORWARD
        FactoryPolicy.Empty = some L ∧
      L = (List.range' 2 (5 - 2)).map (fun P => GFFT.inst P "double" TransformType.REAL
        Decimation.INFREQ Direction.FORWARD FactoryPolicy.Empty) ∧
      L.length = 5 - 2 ∧
      L.map GFFT.P = List.range' 2 (5 - 2) ∧
      (∀ g ∈ L, g.T = "double" ∧ g.Ty = TransformType.REAL ∧
        g.Decimation = Decimation.INFREQ ∧ g.Direction = Direction.FORWARD ∧
        g.FactoryPolicy = FactoryPolicy.Empty) ∧
      (2 = 5 → L = []) :=
  GFFTList_family 3 2 5 "double" TransformType.REAL Decimation.INFREQ Direction.FORWARD
    FactoryPolicy.Empty (by decide) (by decide) (by decide)

/-! ## The registry: C8 - C10 -/

/-- C8: in every state of the process that calls of `Instance()` lead to, for
a range `Min ≤ id < Max` of `unsigned` exponents (and a bound of at least
`Max - Min` nested instantiations), `GFFT_Singleton<Min,Max,...>::Instance()`
returns a registry on which `create(id)` succeeds; the kernel it returns is
`GFFT<id,T,Type,Decimation,Direction,AbstractFFT<T>>`, whose pipeline, and so
whose `fft` on every buffer, is that of the directly built kernel
`GFFT<id,T,Type,Decimation,Direction>`. -/
theorem create_in_range (depth Min Max : Nat) (T : CppType) (Ty : TransformType)
    (Dec : Decimation) (Dir : Direction) (w : World) (id : Nat)
    (hw : Reachable w) (hMax : Max < wordSize) (hdepth : Max - Min ≤ depth)
    (hlo : Min ≤ id) (hhi : id < Max) :
    ∃ (r : Factory × World) (k : GFFT),
      GFFT_Singleton.Instance depth Min Max T Ty Dec Dir w = some r ∧
      r.1.create id = Except.ok k ∧
      k = GFFT.inst id T Ty Dec Dir (FactoryPolicy.AbstractFFT T) ∧
      k.Alg = (GFFT.inst id T Ty Dec Dir FactoryPolicy.Empty).Alg ∧
      (∀ (Buf : Type) (stage : Stage → Buf → Buf) (data : Buf),
        k.fft stage data = (GFFT.inst id T Ty Dec Dir FactoryPolicy.Empty).fft stage data) := by
  have hL := GFFTList_range T Ty Dec Dir (FactoryPolicy.AbstractFFT T) (Max - Min) depth Min
    hdepth (by omega)
  have hE : Min + (Max - Min) = Max := by omega
  rw [hE] at hL
  have hI := GFFT_Singleton.Instance_eq depth Min Max T Ty Dec Dir w _ hL
  have hmem : GFFT.inst id T Ty Dec Dir (FactoryPolicy.AbstractFFT T) ∈
      (List.range' Min (Max - Min)).map
        (fun P => GFFT.inst P T Ty Dec Dir (FactoryPolicy.AbstractFFT T)) := by
    refine List.mem_map.mpr ⟨id, ?_, rfl⟩
    simp only [List.mem_range'_1]
    omega
  obtain ⟨d, hd⟩ := FactoryInit.apply_find_mem _ ((w ⟨T, Ty, Dec, Dir⟩).getD []) _ hmem
  have hwf := (GFFT_Singleton.Instance_Wf depth Min Max T Ty Dec Dir w _ hw.world_wf hI).2
  have hd2 : Factory.find (FactoryInit.apply
      ((List.range' Min (Max - Min)).map
        (fun P => GFFT.inst P T Ty Dec Dir (FactoryPolicy.AbstractFFT T)))
      ((w ⟨T, Ty, Dec, Dir⟩).getD [])) id = some d := hd
  have hdeq := hwf.2 id d hd2
  refine ⟨_, GFFT.inst id T Ty Dec Dir (FactoryPolicy.AbstractFFT T), hI, ?_, rfl, rfl,
    fun _ _ _ => rfl⟩
  simp only [Factory.create, hd2]
  rw [hdeq]
  rfl

/-- C8, at `GFFT_Singleton<1,4,double,REAL,INTIME,BACKWARD>` in a fresh process:
`create(2)` succeeds on the returned registry. -/
theorem create_in_range_witness :
    ∃ (r : Factory × World) (k : GFFT),
      GFFT_Singleton.Instance 3 1 4 "double" TransformType.REAL Decimation.INTIME
        Direction.BACKWARD World.init = some r ∧
      r.1.create 2 = Except.ok k ∧
      k = GFFT.inst 2 "double" TransformType.REAL Decimation.INTIME Direction.BACKWARD
        (FactoryPolicy.AbstractFFT "double") ∧
      k.Alg = (GFFT.inst 2 "double" TransformType.REAL Decimation.INTIME Direction.BACKWARD
        FactoryPolicy.Empty).Alg ∧
      (∀ (Buf : Type) (stage : Stage → Buf → Buf) (data : Buf),
        k.fft stage data = (GFFT.inst 2 "double" TransformType.REAL Decimation.INTIME
          Direction.BACKWARD FactoryPolicy.Empty).fft stage data) :=
  create_in_range 3 1 4 "double" TransformType.REAL Decimation.INTIME Direction.BACKWARD
    World.init 2 Reachable.init (by decide) (by decide) (by decide) (by decide)

/-- C9, as stated, fails: after `GFFT_Singleton<1,10,double,COMPLEX,INFREQ,FORWARD>::Instance()`,
the registry returned by `GFFT_Singleton<1,5,double,COMPLEX,INFREQ,FORWARD>::Instance()`
is the same singleton, and `create(7)`, with 7 outside `[1,5)`, succeeds on it. -/
theorem create_outside_range_succeeds :
    ¬ (1 ≤ 7 ∧ 7 < 5) ∧
    ((GFFT_Singleton.Instance 900 1 10 "double" TransformType.COMPLEX Decimation.INFREQ
        Direction.FORWARD World.init).bind
      (fun r1 => GFFT_Singleton.Instance 900 1 5 "double" TransformType.COMPLEX
        Decimation.INFREQ Direction.FORWARD r1.2)).map (fun r2 => (r2.1.create 7).toOption) =
    some (some (GFFT.inst 7 "double" TransformType.COMPLEX Decimation.INFREQ Direction.FORWARD
      (FactoryPolicy.AbstractFFT "double"))) := by
  decide

/-- C9 (amended): for an `unsigned` range `Min ≤ Max` and an id outside it
(`id < Min` or `id ≥ Max`) that no earlier call has registered in the singleton
of `(T, Type, Decimation, Direction)`, `create(id)` on the registry returned by
`GFFT_Singleton<Min,Max,...>::Instance()` fails with `UnknownLength` and returns
no kernel; and in every state that calls of `Instance()` lead to, a successful
`create(id)` returns the kernel of exponent `id` of this singleton, never one of
another length. -/
theorem create_outside_range (depth Min Max : Nat) (T : CppType) (Ty : TransformType)
    (Dec : Decimation) (Dir : Direction) (w : World) (r : Factory × World)
    (hle : Min ≤ Max) (hMax : Max < wordSize)
    (hI : GFFT_Singleton.Instance depth Min Max T Ty Dec Dir w = some r) :
    (∀ id : Nat, id < Min ∨ Max ≤ id →
      (∀ f : Factory, w ⟨T, Ty, Dec, Dir⟩ = some f → f.find id = none) →
      r.1.create id = Except.error (FactoryError.UnknownLength id)) ∧
    (Reachable w → ∀ (id : Nat) (k : GFFT), r.1.create id = Except.ok k →
      k = GFFT.inst id T Ty Dec Dir (FactoryPolicy.AbstractFFT T)) := by
  refine ⟨?_, ?_⟩
  · intro id hout hfresh
    obtain ⟨L, hL, rfl⟩ := GFFT_Singleton.Instance_some depth Min Max T Ty Dec Dir w r hI
    have hrange :=
      (GFFTList_mem T Ty Dec Dir (FactoryPolicy.AbstractFFT T) depth Min Max L hL).2 hle hMax
    have hinst := (GFFTList_mem T Ty Dec Dir (FactoryPolicy.AbstractFFT T) depth Min Max L hL).1
    have h0 : Factory.find ((w ⟨T, Ty, Dec, Dir⟩).getD []) id = none := by
      cases hk : w ⟨T, Ty, Dec, Dir⟩ with
      | some f => exact hfresh f hk
      | none => rfl
    cases hfind : Factory.find (FactoryInit.apply L ((w ⟨T, Ty, Dec, Dir⟩).getD [])) id with
    | none => simp [Factory.create, hfind]
    | some d =>
      exfalso
      rcases FactoryInit.apply_find L _ id d hfind with h1 | ⟨H, hH, hid, _⟩
      · rw [h0] at h1
        exact Option.noConfusion h1
      · have hr := hrange H hH
        have hP : H.P = id := by
          have hc := hinst H hH
          rw [hc] at hid
          exact hid
        omega
  · intro hw id k hk
    have hwf := (GFFT_Singleton.Instance_Wf depth Min Max T Ty Dec Dir w r hw.world_wf hI).2
    cases hfind : r.1.find id with
    | none => simp [Factory.create, hfind] at hk
    | some d =>
      have hd := hwf.2 id d hfind
      simp only [Factory.create, hfind, Except.ok.injEq] at hk
      rw [← hk, hd]
      rfl

/-- C9 (amended), at `GFFT_Singleton<1,4,double,COMPLEX,INFREQ,FORWARD>` in a
fresh process: `create(7)` fails with `UnknownLength`. -/
theorem create_outside_range_witness :
    ∃ r : Factory × World,
      GFFT_Singleton.Instance 3 1 4 "double" TransformType.COMPLEX Decimation.INFREQ
        Direction.FORWARD World.init = some r ∧
      r.1.create 7 = Except.error (FactoryError.UnknownLength 7) :=
  ⟨_, rfl,
   (create_outside_range 3 1 4 "double" TransformType.COMPLEX Decimation.INFREQ
      Direction.FORWARD World.init _ (by decide) (by decide) rfl).1 7 (Or.inr (by decide))
      (fun f hf => by simp [World.init] at hf)⟩

/-- C10: whatever the state of the process, once a call of
`GFFT_Singleton<Min,Max,...>::Instance()` has returned, a further call returns
the same registry content and leaves every singleton as it was: the entries are
the same list of (id, create-function) pairs, none added, none replaced; and in
every state that calls of `Instance()` lead to, no id occurs twice in them. -/
theorem Instance_idempotent (depth Min Max : Nat) (T : CppType) (Ty : TransformType)
    (Dec : Decimation) (Dir : Direction) (w : World) (r : Factory × World)
    (hI : GFFT_Singleton.Instance depth Min Max T Ty Dec Dir w = some r) :
    GFFT_Singleton.Instance depth Min Max T Ty Dec Dir r.2 = some r ∧
    (Reachable w → r.1.keys.Nodup) := by
  refine ⟨?_, fun hw =>
    (GFFT_Singleton.Instance_Wf depth Min Max T Ty Dec Dir w r hw.world_wf hI).2.1⟩
  obtain ⟨L, hL, rfl⟩ := GFFT_Singleton.Instance_some depth Min Max T Ty Dec Dir w r hI
  rw [GFFT_Singleton.Instance_eq depth Min Max T Ty Dec Dir _ L hL]
  have hnoop : FactoryInit.apply L (FactoryInit.apply L ((w ⟨T, Ty, Dec, Dir⟩).getD [])) =
      FactoryInit.apply L ((w ⟨T, Ty, Dec, Dir⟩).getD []) :=
    FactoryInit.apply_noop L _ (fun H hH => FactoryInit.apply_find_mem L _ H hH)
  simp [hnoop]

/-- C10, at `GFFT_Singleton<1,4,double,COMPLEX,INFREQ,FORWARD>` in a fresh
process: the first call registers the ids 1, 2, 3 and the second call returns
the same registry and the same state. -/
theorem Instance_idempotent_witness :
    ∃ r : Factory × World,
      GFFT_Singleton.Instance 3 1 4 "double" TransformType.COMPLEX Decimation.INFREQ
        Direction.FORWARD World.init = some r ∧
      r.1.keys = [1, 2, 3] ∧
      GFFT_Singleton.Instance 3 1 4 "double" TransformType.COMPLEX Decimation.INFREQ
        Direction.FORWARD r.2 = some r :=
  ⟨_, rfl, rfl,
   (Instance_idempotent 3 1 4 "double" TransformType.COMPLEX Decimation.INFREQ
      Direction.FORWARD World.init _ rfl).1⟩

/-! ## Empty and inverted ranges, the length constant: C12, C15, C16 -/

/-- C12, as stated, fails: `GFFTList<3,3,...>` is instantiated without any
nested instantiation and is the empty family, and
`GFFT_Singleton<3,3,double,COMPLEX,INFREQ,FORWARD>::Instance()` builds and
returns a registry, the empty one in a fresh process. -/
theorem empty_range_builds :
    GFFTList 0 3 3 "double" TransformType.COMPLEX Decimation.INFREQ Direction.FORWARD
      (FactoryPolicy.AbstractFFT "double") = some [] ∧
    (GFFT_Singleton.Instance 0 3 3 "double" TransformType.COMPLEX Decimation.INFREQ
      Direction.FORWARD World.init).map (fun r => r.1) = some [] := by
  decide

/-- C12 (amended): an empty length range is accepted at build time: for
`Min = Max`, `GFFTList<Min,Min,...>` is the empty family under any bound on the
nested instantiations, and `GFFT_Singleton<Min,Min,...>::Instance()` returns the
registry of its singleton with nothing registered by the call; in a fresh
process that registry is empty and `create(id)` fails with `UnknownLength` for
every id. -/
theorem empty_range_family (depth Min : Nat) (T : CppType) (Ty : TransformType)
    (Dec : Decimation) (Dir : Direction) (FP : FactoryPolicy) (w : World) :
    GFFTList depth Min Min T Ty Dec Dir FP = some [] ∧
    GFFT_Singleton.Instance depth Min Min T Ty Dec Dir w =
      some ((w ⟨T, Ty, Dec, Dir⟩).getD [],
        Function.update w ⟨T, Ty, Dec, Dir⟩ (some ((w ⟨T, Ty, Dec, Dir⟩).getD []))) ∧
    (GFFT_Singleton.Instance depth Min Min T Ty Dec Dir World.init).map (fun r => r.1) =
      some [] ∧
    (∀ id : Nat, Factory.create [] id = Except.error (FactoryError.UnknownLength id)) := by
  have hnil : ∀ FP2 : FactoryPolicy, GFFTList depth Min Min T Ty Dec Dir FP2 = some [] := by
    intro FP2
    cases depth <;> simp [GFFTList]
  have hI := fun w2 : World =>
    GFFT_Singleton.Instance_eq depth Min Min T Ty Dec Dir w2 [] (hnil _)
  refine ⟨hnil FP, hI w, ?_, fun id => rfl⟩
  rw [hI World.init]
  rfl

theorem GFFTList_wrap_family (depth Begin End : Nat) (T : CppType) (Ty : TransformType)
    (Dec : Decimation) (Dir : Direction) (FP : FactoryPolicy)
    (hinv : End < Begin) (hB : Begin < wordSize) :
    (depth < wordSize - Begin + End →
      GFFTList depth Begin End T Ty Dec Dir FP = none) ∧
    (wordSize - Begin + End ≤ depth →
      GFFTList depth Begin End T Ty Dec Dir FP =
        some ((List.range' Begin (wordSize - Begin) ++ List.range' 0 End).map
          (fun P => GFFT.inst P T Ty Dec Dir FP))) := by
  obtain ⟨j, hj⟩ : ∃ j, wordSize - Begin = j + 1 := ⟨wordSize - Begin - 1, by omega⟩
  have hwrap := GFFTList_wrap T Ty Dec Dir FP End j depth Begin (by omega) hinv
  rw [hj]
  refine ⟨?_, ?_⟩
  · intro hd
    rw [hwrap]
    by_cases hlt : depth < j + 1
    · simp [hlt]
    · have hz := GFFTList_none_of_lt T Ty Dec Dir FP (depth - (j + 1)) 0 End
        (Nat.zero_le _) (by omega) (by omega)
      simp [hlt, hz]
  · intro hd
    rw [hwrap]
    have hlt : ¬ depth < j + 1 := by omega
    have hz := GFFTList_range T Ty Dec Dir FP End (depth - (j + 1)) 0 (by omega) (by omega)
    rw [Nat.zero_add] at hz
    simp [hlt, hz]

/-- C15: an inverted length range is a build-time error. For `unsigned`
exponents `Begin > End`, the recursion of `GFFTList<Begin,End,...>`, which only
ever increments `Begin` by one, does not reach the terminator
`GFFTList<End,End,...>` without wrapping past the largest `unsigned`: within
fewer than `2^32 - Begin + End` nested instantiations, so in particular within
the `2^32 - Begin` before the wrap, no family is produced; a family that a
larger bound lets through contains the class `GFFT<4294967295,...>`, which does
not build, and its number of builders is not `End - Begin`. So under no bound
is there a family that builds. -/
theorem GFFTList_inverted (depth Begin End : Nat) (T : CppType) (Ty : TransformType)
    (Dec : Decimation) (Dir : Direction) (FP : FactoryPolicy)
    (hinv : End < Begin) (hB : Begin < wordSize) :
    (depth < wordSize - Begin + End →
      GFFTList depth Begin End T Ty Dec Dir FP = none) ∧
    (∀ L : Typelist GFFT, GFFTList depth Begin End T Ty Dec Dir FP = some L →
      GFFT.inst (wordSize - 1) T Ty Dec Dir FP ∈ L ∧
      ¬ (GFFT.inst (wordSize - 1) T Ty Dec Dir FP).Builds ∧
      (L.length : Int) ≠ (End : Int) - (Begin : Int)) ∧
    GFFTList.builds (GFFTList depth Begin End T Ty Dec Dir FP) = false := by
  have hfam := GFFTList_wrap_family depth Begin End T Ty Dec Dir FP hinv hB
  have hnb : ¬ (GFFT.inst (wordSize - 1) T Ty Dec Dir FP).Builds := by
    show ¬ (wordSize - 1 < wordBits)
    decide
  have hsome : ∀ L : Typelist GFFT, GFFTList depth Begin End T Ty Dec Dir FP = some L →
      GFFT.inst (wordSize - 1) T Ty Dec Dir FP ∈ L := by
    intro L hL
    by_cases hd : depth < wordSize - Begin + End
    · rw [hfam.1 hd] at hL
      exact Option.noConfusion hL
    · rw [hfam.2 (by omega)] at hL
      rw [← Option.some.inj hL]
      refine List.mem_map.mpr ⟨wordSize - 1, List.mem_append.mpr (Or.inl ?_), rfl⟩
      simp only [List.mem_range'_1]
      omega
  refine ⟨hfam.1, fun L hL => ⟨hsome L hL, hnb, ?_⟩, ?_⟩
  · have h1 : (End : Int) < (Begin : Int) := by exact_mod_cast hinv
    have h2 : (0 : Int) ≤ (L.length : Int) := Int.ofNat_nonneg _
    omega
  · cases hL : GFFTList depth Begin End T Ty Dec Dir FP with
    | none => rfl
    | some L =>
      simp only [GFFTList.builds, List.all_eq_false]
      exact ⟨_, hsome L hL, by simpa using hnb⟩

/-- C15, at `GFFTList<5,2,...>` with 900 nested instantiations allowed, where
no family is produced, and at `GFFTList<4294967295,1,...>` with two, where the
family that the wrap lets through does not build. -/
theorem GFFTList_inverted_witness :
    (2 : Nat) < 5 ∧
    GFFTList 900 5 2 "double" TransformType.COMPLEX Decimation.INFREQ Direction.FORWARD
      FactoryPolicy.Empty = none ∧
    GFFTList.builds (GFFTList 2 4294967295 1 "double" TransformType.COMPLEX
      Decimation.INFREQ Direction.FORWARD FactoryPolicy.Empty) = false :=
  ⟨by decide,
   (GFFTList_inverted 900 5 2 "double" TransformType.COMPLEX Decimation.INFREQ
      Direction.FORWARD FactoryPolicy.Empty (by decide) (by decide)).1 (by decide),
   (GFFTList_inverted 2 4294967295 1 "double" TransformType.COMPLEX Decimation.INFREQ
      Direction.FORWARD FactoryPolicy.Empty (by decide) (by decide)).2.2⟩

/-- C16: the kernel length `N`, the 32-bit constant `1<<P`, is `2 ^ P` for
every exponent `P ≤ 30`, so it is positive and the length for `P + 1` is twice
the length for `P`; with the shift taken modulo `2 ^ 32`, `N` is `0` and so is
not `2 ^ P` for every `P ≥ 32`. -/
theorem GFFT_N_pow (P : Nat) (T : CppType) (Ty : TransformType) (Dec : Decimation)
    (Dir : Direction) (FP : FactoryPolicy) :
    (P ≤ 30 →
      (GFFT.inst P T Ty Dec Dir FP).N = 2 ^ P ∧
      0 < (GFFT.inst P T Ty Dec Dir FP).N ∧
      (GFFT.inst (P + 1) T Ty Dec Dir FP).N = 2 * (GFFT.inst P T Ty Dec Dir FP).N) ∧
    (32 ≤ P →
      (GFFT.inst P T Ty Dec Dir FP).N = 0 ∧
      (GFFT.inst P T Ty Dec Dir FP).N ≠ 2 ^ P) := by
  refine ⟨?_, ?_⟩
  · intro hP
    have h0 : (GFFT.inst P T Ty Dec Dir FP).N = 2 ^ P :=
      GFFT.N_eq_of_le (GFFT.inst P T Ty Dec Dir FP) hP
    have h1 : 2 ^ (P + 1) < 2 ^ 32 := Nat.pow_lt_pow_right (by decide) (by omega)
    have h2 : (GFFT.inst (P + 1) T Ty Dec Dir FP).N = 2 ^ (P + 1) := by
      simp only [GFFT.N, GFFT.inst, wordSize, wordBits, Nat.one_shiftLeft]
      exact Nat.mod_eq_of_lt h1
    refine ⟨h0, ?_, ?_⟩
    · rw [h0]
      exact Nat.pos_pow_of_pos P (by decide)
    · rw [h0, h2, Nat.pow_succ, Nat.mul_comm]
  · intro hP
    have h0 : (GFFT.inst P T Ty Dec Dir FP).N = 0 := by
      simp only [GFFT.N, GFFT.inst, wordSize, wordBits, Nat.one_shiftLeft]
      exact Nat.mod_eq_zero_of_dvd (Nat.pow_dvd_pow 2 hP)
    refine ⟨h0, ?_⟩
    rw [h0]
    exact (Nat.pos_pow_of_pos P (by decide)).ne

/-- C16, at the exponents 30 and 32: the length for `P = 30` is `2 ^ 30` and the
length for `P = 32` is `0`. -/
theorem GFFT_N_pow_witness :
    (GFFT.inst 30 "double" TransformType.COMPLEX Decimation.INFREQ Direction.FORWARD
      FactoryPolicy.Empty).N = 2 ^ 30 ∧
    (GFFT.inst 32 "double" TransformType.COMPLEX Decimation.INFREQ Direction.FORWARD
      FactoryPolicy.Empty).N = 0 :=
  ⟨((GFFT_N_pow 30 "double" TransformType.COMPLEX Decimation.INFREQ Direction.FORWARD
      FactoryPolicy.Empty).1 (by decide)).1,
   ((GFFT_N_pow 32 "double" TransformType.COMPLEX Decimation.INFREQ Direction.FORWARD
      FactoryPolicy.Empty).2 (by decide)).1⟩

/-! ## Sharing of the registry: C11, C17, C19 -/

/-- C11, as stated, fails for instantiations that differ only in `(Min, Max)`:
in a fresh process `GFFT_Singleton<1,3,double,COMPLEX,INFREQ,FORWARD>::Instance()`
returns a registry with the ids 1, 2; after a call of
`GFFT_Singleton<3,5,double,COMPLEX,INFREQ,FORWARD>::Instance()` it returns a
registry with the ids 1, 2, 3, 4. -/
theorem Instance_other_range_changes :
    (GFFT_Singleton.Instance 900 1 3 "double" TransformType.COMPLEX Decimation.INFREQ
      Direction.FORWARD World.init).map (fun r => r.1.keys) = some [1, 2] ∧
    ((GFFT_Singleton.Instance 900 1 3 "double" TransformType.COMPLEX Decimation.INFREQ
        Direction.FORWARD World.init).bind
      (fun r1 => (GFFT_Singleton.Instance 900 3 5 "double" TransformType.COMPLEX
        Decimation.INFREQ Direction.FORWARD r1.2).bind
      (fun r2 => GFFT_Singleton.Instance 900 1 3 "double" TransformType.COMPLEX
        Decimation.INFREQ Direction.FORWARD r2.2))).map (fun r => r.1.keys) =
      some [1, 2, 3, 4] := by
  decide

/-- C11 (amended): registries for different element types or selector tuples
never share a registry instance: for two instantiations of `GFFT_Singleton`
that differ in `T` or in `(Type, Decimation, Direction)`, whatever their ranges,
a call of `Instance()` on the first leaves the singleton of the second as it
was, so `Instance()` on the second returns the same registry content after the
call as it would have returned before it. -/
theorem Instance_frame (d1 Min1 Max1 : Nat) (T1 : CppType) (Ty1 : TransformType)
    (Dec1 : Decimation) (Dir1 : Direction) (d2 Min2 Max2 : Nat) (T2 : CppType)
    (Ty2 : TransformType) (Dec2 : Decimation) (Dir2 : Direction) (w : World)
    (r : Factory × World)
    (hdiff : T1 ≠ T2 ∨ Ty1 ≠ Ty2 ∨ Dec1 ≠ Dec2 ∨ Dir1 ≠ Dir2)
    (hI : GFFT_Singleton.Instance d1 Min1 Max1 T1 Ty1 Dec1 Dir1 w = some r) :
    r.2 ⟨T2, Ty2, Dec2, Dir2⟩ = w ⟨T2, Ty2, Dec2, Dir2⟩ ∧
    (GFFT_Singleton.Instance d2 Min2 Max2 T2 Ty2 Dec2 Dir2 r.2).map (fun q => q.1) =
      (GFFT_Singleton.Instance d2 Min2 Max2 T2 Ty2 Dec2 Dir2 w).map (fun q => q.1) := by
  obtain ⟨L, hL, rfl⟩ := GFFT_Singleton.Instance_some d1 Min1 Max1 T1 Ty1 Dec1 Dir1 w r hI
  have hk : (⟨T2, Ty2, Dec2, Dir2⟩ : SingletonKey) ≠ ⟨T1, Ty1, Dec1, Dir1⟩ := by
    intro h
    injection h with h1 h2 h3 h4
    rcases hdiff with h | h | h | h
    · exact h h1.symm
    · exact h h2.symm
    · exact h h3.symm
    · exact h h4.symm
  have hsame : Function.update w ⟨T1, Ty1, Dec1, Dir1⟩
      (some (FactoryInit.apply L ((w ⟨T1, Ty1, Dec1, Dir1⟩).getD [])))
      ⟨T2, Ty2, Dec2, Dir2⟩ = w ⟨T2, Ty2, Dec2, Dir2⟩ := Function.update_noteq hk _ _
  refine ⟨hsame, ?_⟩
  cases hL2 : GFFT_Singleton.FInit d2 Min2 Max2 T2 Ty2 Dec2 Dir2 with
  | none => simp [GFFT_Singleton.Instance, hL2]
  | some L2 =>
    rw [GFFT_Singleton.Instance_eq d2 Min2 Max2 T2 Ty2 Dec2 Dir2 _ L2 hL2,
      GFFT_Singleton.Instance_eq d2 Min2 Max2 T2 Ty2 Dec2 Dir2 w L2 hL2]
    simp only [Option.map_some', hsame]

/-- C11 (amended), at the forward and the backward complex registries of
`double`: after `Instance()` of the forward one in a fresh process, the backward
one has still not been created. -/
theorem Instance_frame_witness :
    ∃ r : Factory × World,
      GFFT_Singleton.Instance 3 1 4 "double" TransformType.COMPLEX Decimation.INFREQ
        Direction.FORWARD World.init = some r ∧
      r.2 ⟨"double", TransformType.COMPLEX, Decimation.INFREQ, Direction.BACKWARD⟩ = none :=
  ⟨_, rfl,
   (Instance_frame 3 1 4 "double" TransformType.COMPLEX Decimation.INFREQ Direction.FORWARD
      3 1 4 "double" TransformType.COMPLEX Decimation.INFREQ Direction.BACKWARD World.init _
      (Or.inr (Or.inr (Or.inr (by decide)))) rfl).1⟩

/-- C17: every kernel builder of `GFFTList<Min,Max,...>` has `ID` equal to its
exponent `P`, which is less than the length `2 ^ P`, so the ids of one family
are pairwise distinct; and after the first `Instance()` call on a registry that
has not been created before, the registry maps exactly the ids
`Min, Min+1, ..., Max-1`, that is `Max - Min` entries, each id to `Create` of
`GFFT<id,T,Type,Decimation,Direction,AbstractFFT<T>>`. -/
theorem registry_content (depth Min Max : Nat) (T : CppType) (Ty : TransformType)
    (Dec : Decimation) (Dir : Direction) (w : World)
    (hle : Min ≤ Max) (hMax : Max < wordSize) (hdepth : Max - Min ≤ depth)
    (hfresh : w ⟨T, Ty, Dec, Dir⟩ = none) :
    ∃ (L : Typelist GFFT) (r : Factory × World),
      GFFT_Singleton.FInit depth Min Max T Ty Dec Dir = some L ∧
      (∀ g ∈ L, g.ID = g.P ∧ g.ID < 2 ^ g.P) ∧
      (L.map GFFT.ID).Nodup ∧
      GFFT_Singleton.Instance depth Min Max T Ty Dec Dir w = some r ∧
      r.1 = (List.range' Min (Max - Min)).map
        (fun id => (id, GFFT.inst id T Ty Dec Dir (FactoryPolicy.AbstractFFT T))) ∧
      r.1.keys = List.range' Min (Max - Min) ∧
      r.1.length = Max - Min ∧
      (∀ id : Nat, id ∈ r.1.keys ↔ Min ≤ id ∧ id < Max) := by
  have hL := GFFTList_range T Ty Dec Dir (FactoryPolicy.AbstractFFT T) (Max - Min) depth Min
    hdepth (by omega)
  have hE : Min + (Max - Min) = Max := by omega
  rw [hE] at hL
  have hI := GFFT_Singleton.Instance_eq depth Min Max T Ty Dec Dir w _ hL
  have hids : ((List.range' Min (Max - Min)).map
      (fun P => GFFT.inst P T Ty Dec Dir (FactoryPolicy.AbstractFFT T))).map GFFT.ID =
      List.range' Min (Max - Min) := by
    simp [List.map_map, Function.comp_def, GFFT.inst, GFFT.ID]
  have hnd : (((List.range' Min (Max - Min)).map
      (fun P => GFFT.inst P T Ty Dec Dir (FactoryPolicy.AbstractFFT T))).map GFFT.ID).Nodup := by
    rw [hids]
    exact List.nodup_range' Min (Max - Min)
  have happ := FactoryInit.apply_eq_append _ ([] : Factory) hnd
    (fun _ _ => by simp [Factory.keys])
  have hcontent : FactoryInit.apply ((List.range' Min (Max - Min)).map
      (fun P => GFFT.inst P T Ty Dec Dir (FactoryPolicy.AbstractFFT T)))
      ((w ⟨T, Ty, Dec, Dir⟩).getD []) =
      (List.range' Min (Max - Min)).map
        (fun id => (id, GFFT.inst id T Ty Dec Dir (FactoryPolicy.AbstractFFT T))) := by
    rw [hfresh, Option.getD_none, happ]
    simp [List.map_map, Function.comp_def, GFFT.inst, GFFT.ID]
  refine ⟨_, _, hL, ?_, hnd, hI, hcontent, ?_, ?_, ?_⟩
  · intro g hg
    obtain ⟨P, _, rfl⟩ := List.mem_map.mp hg
    exact ⟨rfl, Nat.lt_two_pow P⟩
  · simp only [hcontent]
    simp [Factory.keys, List.map_map, Function.comp_def]
  · simp only [hcontent]
    simp
  · intro id
    simp only [hcontent]
    simp only [Factory.keys, List.map_map, Function.comp_def, List.map_id', List.mem_range'_1]
    omega

/-- C17, at `GFFT_Singleton<1,4,double,REAL,INFREQ,FORWARD>` in a fresh process:
the registry holds the ids 1, 2, 3. -/
theorem registry_content_witness :
    ∃ (L : Typelist GFFT) (r : Factory × World),
      GFFT_Singleton.FInit 3 1 4 "double" TransformType.REAL Decimation.INFREQ
        Direction.FORWARD = some L ∧
      (∀ g ∈ L, g.ID = g.P ∧ g.ID < 2 ^ g.P) ∧
      (L.map GFFT.ID).Nodup ∧
      GFFT_Singleton.Instance 3 1 4 "double" TransformType.REAL Decimation.INFREQ
        Direction.FORWARD World.init = some r ∧
      r.1 = (List.range' 1 (4 - 1)).map
        (fun id => (id, GFFT.inst id "double" TransformType.REAL Decimation.INFREQ
          Direction.FORWARD (FactoryPolicy.AbstractFFT "double"))) ∧
      r.1.keys = List.range' 1 (4 - 1) ∧
      r.1.length = 4 - 1 ∧
      (∀ id : Nat, id ∈ r.1.keys ↔ 1 ≤ id ∧ id < 4) :=
  registry_content 3 1 4 "double" TransformType.REAL Decimation.INFREQ Direction.FORWARD
    World.init (by decide) (by decide) (by decide) rfl

/-- C19: the factory singleton does not depend on `(Min, Max)`: after
`Instance()` of `GFFT_Singleton<Min1,Max1,T,Ty,Dec,Dir>` and then `Instance()`
of `GFFT_Singleton<Min2,Max2,T,Ty,Dec,Dir>`, each call has returned the content
of the one singleton of `(T, Ty, Dec, Dir)`, a further `Instance()` of the first
returns the very registry the second returned, and on it `create(id)` succeeds
for every id of `[Min1,Max1)` and of `[Min2,Max2)`; in a state that calls of
`Instance()` lead to, the kernel created is
`GFFT<id,T,Ty,Dec,Dir,AbstractFFT<T>>`. -/
theorem shared_registry (d1 Min1 Max1 d2 Min2 Max2 : Nat) (T : CppType)
    (Ty : TransformType) (Dec : Decimation) (Dir : Direction) (w : World)
    (r1 r2 : Factory × World)
    (hMax1 : Max1 < wordSize) (hMax2 : Max2 < wordSize)
    (hI1 : GFFT_Singleton.Instance d1 Min1 Max1 T Ty Dec Dir w = some r1)
    (hI2 : GFFT_Singleton.Instance d2 Min2 Max2 T Ty Dec Dir r1.2 = some r2) :
    r1.2 ⟨T, Ty, Dec, Dir⟩ = some r1.1 ∧
    r2.2 ⟨T, Ty, Dec, Dir⟩ = some r2.1 ∧
    GFFT_Singleton.Instance d1 Min1 Max1 T Ty Dec Dir r2.2 = some r2 ∧
    (∀ id : Nat, (Min1 ≤ id ∧ id < Max1) ∨ (Min2 ≤ id ∧ id < Max2) →
      ∃ k : GFFT, r2.1.create id = Except.ok k) ∧
    (Reachable w → ∀ id : Nat, (Min1 ≤ id ∧ id < Max1) ∨ (Min2 ≤ id ∧ id < Max2) →
      r2.1.create id =
        Except.ok (GFFT.inst id T Ty Dec Dir (FactoryPolicy.AbstractFFT T))) := by
  have hwf2 : Reachable w → Factory.Wf ⟨T, Ty, Dec, Dir⟩ r2.1 := fun hw =>
    (GFFT_Singleton.Instance_Wf d2 Min2 Max2 T Ty Dec Dir r1.2 r2
      (GFFT_Singleton.Instance_Wf d1 Min1 Max1 T Ty Dec Dir w r1 hw.world_wf hI1).1 hI2).2
  obtain ⟨L1, hL1, rfl⟩ := GFFT_Singleton.Instance_some d1 Min1 Max1 T Ty Dec Dir w r1 hI1
  obtain ⟨L2, hL2, rfl⟩ := GFFT_Singleton.Instance_some d2 Min2 Max2 T Ty Dec Dir _ r2 hI2
  simp only [Function.update_same, Option.getD_some] at hwf2 ⊢
  have hfind : ∀ id : Nat, (Min1 ≤ id ∧ id < Max1) ∨ (Min2 ≤ id ∧ id < Max2) →
      ∃ d, Factory.find (FactoryInit.apply L2
        (FactoryInit.apply L1 ((w ⟨T, Ty, Dec, Dir⟩).getD []))) id = some d := by
    intro id hid
    rcases hid with ⟨hlo, hhi⟩ | ⟨hlo, hhi⟩
    · have hmem := GFFTList_mem_of_range T Ty Dec Dir (FactoryPolicy.AbstractFFT T) d1 Min1
        Max1 id L1 hL1 hMax1 hlo hhi
      obtain ⟨d, hd⟩ := FactoryInit.apply_find_mem L1 ((w ⟨T, Ty, Dec, Dir⟩).getD []) _ hmem
      exact ⟨d, FactoryInit.apply_find_of_some L2 _ id d hd⟩
    · have hmem := GFFTList_mem_of_range T Ty Dec Dir (FactoryPolicy.AbstractFFT T) d2 Min2
        Max2 id L2 hL2 hMax2 hlo hhi
      exact FactoryInit.apply_find_mem L2 _ _ hmem
  refine ⟨trivial, trivial, ?_, ?_, ?_⟩
  · rw [GFFT_Singleton.Instance_eq d1 Min1 Max1 T Ty Dec Dir _ L1 hL1]
    have hnoop : FactoryInit.apply L1 (FactoryInit.apply L2
        (FactoryInit.apply L1 ((w ⟨T, Ty, Dec, Dir⟩).getD []))) =
        FactoryInit.apply L2 (FactoryInit.apply L1 ((w ⟨T, Ty, Dec, Dir⟩).getD [])) := by
      apply FactoryInit.apply_noop
      intro H hH
      obtain ⟨d, hd⟩ := FactoryInit.apply_find_mem L1 ((w ⟨T, Ty, Dec, Dir⟩).getD []) H hH
      exact ⟨d, FactoryInit.apply_find_of_some L2 _ _ d hd⟩
    simp [hnoop]
  · intro id hid
    obtain ⟨d, hd⟩ := hfind id hid
    exact ⟨d.Create, by simp [Factory.create, hd]⟩
  · intro hw id hid
    obtain ⟨d, hd⟩ := hfind id hid
    have hdeq := (hwf2 hw).2 id d hd
    simp only [Factory.create, hd]
    rw [hdeq]
    rfl

/-- C19, at `GFFT_Singleton<1,3,...>` followed by `GFFT_Singleton<3,5,...>` for
`(double, COMPLEX, INFREQ, FORWARD)` in a fresh process: the registry returned
by the second call holds the ids 1, 2, 3, 4 and the first instantiation returns
it as well. -/
theorem shared_registry_witness :
    ∃ r1 r2 : Factory × World,
      GFFT_Singleton.Instance 2 1 3 "double" TransformType.COMPLEX Decimation.INFREQ
        Direction.FORWARD World.init = some r1 ∧
      GFFT_Singleton.Instance 2 3 5 "double" TransformType.COMPLEX Decimation.INFREQ
        Direction.FORWARD r1.2 = some r2 ∧
      r2.1.keys = [1, 2, 3, 4] ∧
      GFFT_Singleton.Instance 2 1 3 "double" TransformType.COMPLEX Decimation.INFREQ
        Direction.FORWARD r2.2 = some r2 :=
  ⟨_, _, rfl, rfl, rfl,
   (shared_registry 2 1 3 2 3 5 "double" TransformType.COMPLEX Decimation.INFREQ
      Direction.FORWARD World.init _ _ (by decide) (by decide) rfl rfl).2.2.1⟩

/-! ## Shape of the pipeline and the transform of length 2: C13, C14, C18 -/

/-- C13: the complex forward kernel of length 2 (`P = 1`, `COMPLEX`,
`FORWARD`, either decimation), applied to the buffer `[a, b]` of exact values
of a commutative ring, gives `[a + b, a - b]`, whatever the roots of unity of
the twiddle recursion are. -/
theorem complex_forward_length2 {α : Type} [CommRing α] (root : Int → Nat → α)
    (backward : Nat → List α → List α) (separate : Nat → Int → List α → List α)
    (T : CppType) (Dec : Decimation) (FP : FactoryPolicy) (a b : α) :
    (GFFT.inst 1 T TransformType.COMPLEX Dec Direction.FORWARD FP).fft
      (Stage.apply root backward separate) [a, b] = [a + b, a - b] := by
  have hT : (GFFT.inst 1 T TransformType.COMPLEX Decimation.INTIME Direction.FORWARD FP).Alg =
      [Stage.GFFTswap 2 T, Stage.InTime 2 T 1, Stage.Direction (DirStage.Forward 2 T)] := rfl
  have hF : (GFFT.inst 1 T TransformType.COMPLEX Decimation.INFREQ Direction.FORWARD FP).Alg =
      [Stage.InFreq 2 T 1, Stage.GFFTswap 2 T, Stage.Direction (DirStage.Forward 2 T)] := rfl
  cases Dec
  · unfold GFFT.fft
    rw [hT]
    simp [PoliciesHandler.apply, Stage.apply, GFFTswap.apply,
      GFFTswap.reorder, evens, odds, InTime.apply, InTime.split, twiddles, twiddlesFrom]
  · unfold GFFT.fft
    rw [hF]
    simp [PoliciesHandler.apply, Stage.apply, GFFTswap.apply,
      GFFTswap.reorder, evens, odds, InFreq.apply, InFreq.split, twiddles, twiddlesFrom]

/-- C13, over the integers with the buffer `[3, 5]`: the in-time and the
in-frequency kernel both give `[8, -2]`. -/
theorem complex_forward_length2_witness :
    (GFFT.inst 1 "double" TransformType.COMPLEX Decimation.INTIME Direction.FORWARD
      FactoryPolicy.Empty).fft
      (Stage.apply (fun _ _ => (1 : Int)) (fun _ x => x) (fun _ _ x => x)) [3, 5] =
      [3 + 5, 3 - 5] ∧
    (GFFT.inst 1 "double" TransformType.COMPLEX Decimation.INFREQ Direction.FORWARD
      FactoryPolicy.Empty).fft
      (Stage.apply (fun _ _ => (1 : Int)) (fun _ x => x) (fun _ _ x => x)) [3, 5] =
      [8, -2] :=
  ⟨complex_forward_length2 (fun _ _ => (1 : Int)) (fun _ x => x) (fun _ _ x => x) "double"
      Decimation.INTIME FactoryPolicy.Empty 3 5,
   (complex_forward_length2 (fun _ _ => (1 : Int)) (fun _ x => x) (fun _ _ x => x) "double"
      Decimation.INFREQ FactoryPolicy.Empty 3 5).trans (by decide)⟩

/-- C14: for every exponent `P`, decimation and buffer `x`, `fft` of the real
forward kernel is its separator stage `Separate<N,T,+1>` applied to the result
of `fft` of the complex forward kernel of the same `P` and decimation, and
`fft` of the real backward kernel is `fft` of the complex backward kernel
applied to the result of its separator stage `Separate<N,T,-1>` on `x`. -/
theorem real_fft_separator {Buf : Type} (stage : Stage → Buf → Buf) (P : Nat)
    (T : CppType) (Dec : Decimation) (FP : FactoryPolicy) (x : Buf) :
    (GFFT.inst P T TransformType.REAL Dec Direction.FORWARD FP).fft stage x =
      stage (GFFT.inst P T TransformType.REAL Dec Direction.FORWARD FP).Sep
        ((GFFT.inst P T TransformType.COMPLEX Dec Direction.FORWARD FP).fft stage x) ∧
    (GFFT.inst P T TransformType.REAL Dec Direction.BACKWARD FP).fft stage x =
      (GFFT.inst P T TransformType.COMPLEX Dec Direction.BACKWARD FP).fft stage
        (stage (GFFT.inst P T TransformType.REAL Dec Direction.BACKWARD FP).Sep x) ∧
    (GFFT.inst P T TransformType.REAL Dec Direction.FORWARD FP).Sep =
      Stage.Separate (GFFT.inst P T TransformType.REAL Dec Direction.FORWARD FP).N T 1 ∧
    (GFFT.inst P T TransformType.REAL Dec Direction.BACKWARD FP).Sep =
      Stage.Separate (GFFT.inst P T TransformType.REAL Dec Direction.BACKWARD FP).N T (-1) := by
  refine ⟨?_, rfl, rfl, rfl⟩
  have hAlg : (GFFT.inst P T TransformType.REAL Dec Direction.FORWARD FP).Alg =
      (GFFT.inst P T TransformType.COMPLEX Dec Direction.FORWARD FP).Alg ++
        [(GFFT.inst P T TransformType.REAL Dec Direction.FORWARD FP).Sep] :=
    Loki.TL.Append_eq _ _
  simp only [GFFT.fft, hAlg, PoliciesHandler.apply_append]
  rfl

/-- C14, with stages that append themselves to a log, at exponent 2 and
in-frequency decimation: the real forward kernel runs the separator last, the
real backward kernel runs it first. -/
theorem real_fft_separator_witness :
    (GFFT.inst 2 "double" TransformType.REAL Decimation.INFREQ Direction.FORWARD
      FactoryPolicy.Empty).fft (fun s (log : List Stage) => log ++ [s]) [] =
      [Stage.InFreq 4 "double" 1, Stage.GFFTswap 4 "double",
        Stage.Direction (DirStage.Forward 4 "double"), Stage.Separate 4 "double" 1] ∧
    (GFFT.inst 2 "double" TransformType.REAL Decimation.INFREQ Direction.BACKWARD
      FactoryPolicy.Empty).fft (fun s (log : List Stage) => log ++ [s]) [] =
      [Stage.Separate 4 "double" (-1), Stage.InFreq 4 "double" (-1),
        Stage.GFFTswap 4 "double", Stage.Direction (DirStage.Backward 4 "double")] :=
  ⟨((real_fft_separator (fun s (log : List Stage) => log ++ [s]) 2 "double"
      Decimation.INFREQ FactoryPolicy.Empty []).1).trans (by decide),
   ((real_fft_separator (fun s (log : List Stage) => log ++ [s]) 2 "double"
      Decimation.INFREQ FactoryPolicy.Empty []).2.1).trans (by decide)⟩

/-- C18: for every kernel, the pipeline has 3 stages when `Type` is `COMPLEX`
and 4 when it is `REAL`; it has exactly one reorder stage, one recursive-split
stage and one direction stage, and a separator stage, exactly one, if and only
if `Type` is `REAL`; the direction stage comes after the reorder stage and
after the recursive-split stage; and the `INTIME` and `INFREQ` pipelines of the
same `(P, T, Type, Direction)` have the same stages before and after the
adjacent pair of reorder and recursive-split stage, which is
`GFFTswap<N,T>, InTime<N,T,S>` in one and `InFreq<N,T,S>, GFFTswap<N,T>` in the
other. -/
theorem GFFT_Alg_structure (g : GFFT) :
    (g.Ty = TransformType.COMPLEX → g.Alg.length = 3) ∧
    (g.Ty = TransformType.REAL → g.Alg.length = 4) ∧
    (g.Alg.map Stage.kind).count StageKind.reorder = 1 ∧
    (g.Alg.map Stage.kind).count StageKind.split = 1 ∧
    (g.Alg.map Stage.kind).count StageKind.direction = 1 ∧
    (g.Alg.map Stage.kind).count StageKind.separator =
      (if g.Ty = TransformType.REAL then 1 else 0) ∧
    (StageKind.separator ∈ g.Alg.map Stage.kind ↔ g.Ty = TransformType.REAL) ∧
    (g.Alg.map Stage.kind).indexOf StageKind.reorder <
      (g.Alg.map Stage.kind).indexOf StageKind.direction ∧
    (g.Alg.map Stage.kind).indexOf StageKind.split <
      (g.Alg.map Stage.kind).indexOf StageKind.direction ∧
    (∃ pre post : Typelist Stage,
      (GFFT.mk g.P g.T g.Ty Decimation.INTIME g.Direction g.FactoryPolicy g.IDN).Alg =
        pre ++ [Stage.GFFTswap g.N g.T, Stage.InTime g.N g.T g.Dir.Sign] ++ post ∧
      (GFFT.mk g.P g.T g.Ty Decimation.INFREQ g.Direction g.FactoryPolicy g.IDN).Alg =
        pre ++ [Stage.InFreq g.N g.T g.Dir.Sign, Stage.GFFTswap g.N g.T] ++ post) := by
  obtain ⟨P, T, Ty, Dec, Dir, FP, IDN⟩ := g
  refine ⟨?_, ?_, ?_, ?_, ?_, ?_, ?_, ?_, ?_, ?_⟩
  · rintro rfl
    cases Dec <;> rfl
  · rintro rfl
    cases Dec <;> cases Dir <;> rfl
  · cases Ty <;> cases Dec <;> cases Dir <;> rfl
  · cases Ty <;> cases Dec <;> cases Dir <;> rfl
  · cases Ty <;> cases Dec <;> cases Dir <;> rfl
  · cases Ty <;> cases Dec <;> cases Dir <;> rfl
  · cases Ty <;> cases Dec <;> cases Dir <;>
      simp [GFFT.Alg, GFFT.TList, GFFT.Sep, GFFT.Swap, GFFT.Dir, TransformType.Algorithm,
        COMPLEX.Algorithm, REAL.Algorithm, Direction.AddSeparator, FORWARD.AddSeparator,
        BACKWARD.AddSeparator, Loki.TL.Append, Decimation.List, INTIME.List, INFREQ.List,
        Stage.kind]
  · cases Ty <;> cases Dec <;> cases Dir <;> exact of_decide_eq_true rfl
  · cases Ty <;> cases Dec <;> cases Dir <;> exact of_decide_eq_true rfl
  · cases Ty
    · exact ⟨[], [Stage.Direction (Dir.Type_ ((1 <<< P) % wordSize) T)], rfl, rfl⟩
    · cases Dir
      · exact ⟨[], [Stage.Direction (DirStage.Forward ((1 <<< P) % wordSize) T),
          Stage.Separate ((1 <<< P) % wordSize) T 1], rfl, rfl⟩
      · exact ⟨[Stage.Separate ((1 <<< P) % wordSize) T (-1)],
          [Stage.Direction (DirStage.Backward ((1 <<< P) % wordSize) T)], rfl, rfl⟩

/-- C18, at the real kernels of exponent 3 and forward direction: the in-time
pipeline has 4 stages and a separator, and the complex in-time pipeline has 3
stages. -/
theorem GFFT_Alg_structure_witness :
    (GFFT.inst 3 "double" TransformType.REAL Decimation.INTIME Direction.FORWARD
      FactoryPolicy.Empty).Alg.length = 4 ∧
    (GFFT.inst 3 "double" TransformType.COMPLEX Decimation.INTIME Direction.FORWARD
      FactoryPolicy.Empty).Alg.length = 3 :=
  ⟨(GFFT_Alg_structure (GFFT.inst 3 "double" TransformType.REAL Decimation.INTIME
      Direction.FORWARD FactoryPolicy.Empty)).2.1 rfl,
   (GFFT_Alg_structure (GFFT.inst 3 "double" TransformType.COMPLEX Decimation.INTIME
      Direction.FORWARD FactoryPolicy.Empty)).1 rfl⟩

end DFT
